import Mathlib

/-!
# ScaleGraph `MemoryChunkData.h`: allocation, ownership, element access, copy, serialization

A shallow embedding of `org::scalegraph::util::MCData_Base` and of the scalar and
object specialisations of `MCData_Impl`, over a byte-addressed 64-bit memory.

* addresses (`ELEM*`, `size_t`) are natural numbers below `2^64`, `NULL` is `0`;
* `x10_long` and `x10_int` values are integers, and every place where the C++ code
  converts them to an unsigned word is an explicit reduction modulo `2^64` or `2^32`;
* the X10 runtime (`x10aux::alloc_chunk`, `x10aux::dealloc`, `memset`) is external to
  the header: the address handed back by `alloc_chunk` is a parameter of `_make`, and the
  runtime state records the blocks that are live and the content of memory;
* the atomic builtins, `memmove` and the serialization buffers are external as well: each
  builtin is one step on the bytes of one element, a scalar buffer is the list of its
  bytes, and for class elements the buffer is a list of tokens together with the object
  table of the identities registered so far;
* `sz` stands for `sizeof(ELEM)`.
-/

namespace MemoryChunkData

/-! ## Machine words -/

/-- Bit pattern of the signed value `x` in a two's-complement word of `w` bits. -/
def toBits (w : Nat) (x : Int) : Nat := (x % (2 : Int) ^ w).toNat

/-- Bitwise complement `~x` of a signed value (two's complement). -/
def bitNot (x : Int) : Int := -x - 1

/-- The null address. -/
def NULL : Nat := 0

/-! ## Runtime state -/

/-- State of the X10 runtime seen by the header: the bytes of memory and the blocks
that `alloc_chunk` handed out and `dealloc` has not taken back, as `(address, bytes)`. -/
structure Runtime where
  mem : Nat → Nat
  live : List (Nat × Nat)

/-- A runtime with zeroed memory and no live block. -/
def Runtime.init : Runtime := ⟨fun _ => 0, []⟩

/-- Effect of `x10aux::alloc_chunk(size, containsPtrs)` returning `addr`: the block
becomes live. -/
def alloc_chunk (addr size : Nat) (rt : Runtime) : Runtime :=
  { rt with live := (addr, size) :: rt.live }

/-- Effect of `x10aux::dealloc(p)`: the block at `p` stops being live; `dealloc(NULL)`
does nothing. -/
def dealloc (p : Nat) (rt : Runtime) : Runtime :=
  if p = NULL then rt else { rt with live := rt.live.filter (fun b => b.1 != p) }

/-- Effect of `memset(p, v, n)`. -/
def memset (p v n : Nat) (rt : Runtime) : Runtime :=
  { rt with mem := fun q => if p ≤ q ∧ q < p + n then v % 256 else rt.mem q }

/-- Little-endian value of the `n` bytes stored at `addr`. -/
def readBytes (mem : Nat → Nat) (addr : Nat) : Nat → Nat
  | 0 => 0
  | n + 1 => readBytes mem addr n + mem (addr + n) * 256 ^ n

/-- Memory after storing the `n` low bytes of `x` at `addr`, little-endian. -/
def writeBytes (mem : Nat → Nat) (addr n x : Nat) : Nat → Nat :=
  fun q => if addr ≤ q ∧ q < addr + n then x / 256 ^ (q - addr) % 256 else mem q

/-! ## `MCData_Base` -/

/-- Failures the header can raise. -/
inductive Failure where
  | AssertionFailed
  | UnsupportedOperationException
  deriving DecidableEq, Repr

/-- The fields `head`, `pointer`, `size` of `MCData_Base`. -/
structure MCData_Base where
  head : Nat
  pointer : Nat
  size : Int
  deriving DecidableEq, Repr

namespace MCData_Base

/-- The constructor `MCData_Base()`. -/
def empty : MCData_Base := ⟨NULL, NULL, 0⟩

/-- The constructor `MCData_Base(head__, pointer__, size__)`: a null `pointer__` is
replaced by `head__`. -/
def make3 (head__ pointer__ : Nat) (size__ : Int) : MCData_Base :=
  if pointer__ = NULL then ⟨head__, head__, size__⟩ else ⟨head__, pointer__, size__⟩

/-- Address of `p[index]` for `p : ELEM*`, i.e. `p + index` in pointer arithmetic. -/
def elemAddr (sz : Nat) (p : Nat) (index : Int) : Nat :=
  toBits 64 (p + index * sz)

/-- The static `MCData_Base::_make(numElements, alignment, zeroed)`; `allocMem` is the
address returned by `x10aux::alloc_chunk`. -/
def _make (sz : Nat) (allocMem : Nat) (numElements alignment : Int) (zeroed : Bool)
    (rt : Runtime) : Except Failure (MCData_Base × Runtime) :=
  if numElements = 0 then
    .ok (make3 NULL NULL 0, rt)
  else if toBits 32 alignment &&& toBits 32 (alignment - 1) ≠ 0 then
    .error Failure.AssertionFailed
  else
    let size := toBits 64 (alignment + numElements * sz)
    let rt1 := alloc_chunk allocMem size rt
    let rt2 := if zeroed then memset allocMem 0 size rt1 else rt1
    if alignment > 0 then
      let alignDelta : Int := alignment - 1
      let alignMask : Int := bitNot alignDelta
      let alignedMem := toBits 64 (allocMem + alignDelta) &&& toBits 64 alignMask
      .ok (make3 allocMem alignedMem numElements, rt2)
    else
      .ok (make3 allocMem allocMem numElements, rt2)

/-- The method `MCData_Base::del()`: outcome, fields of the chunk afterwards, runtime
afterwards. The exception is thrown before anything is modified. -/
def del (c : MCData_Base) (rt : Runtime) : Except Failure Unit × MCData_Base × Runtime :=
  if c.head ≠ c.pointer then
    (.error Failure.UnsupportedOperationException, c, rt)
  else
    (.ok (), ⟨NULL, NULL, 0⟩, dealloc c.head rt)

end MCData_Base

/-! ## `MCData_Impl<T>` for scalar element types -/

namespace MCData_Impl

open MCData_Base

/-- The scalar `MCData_Impl<T>::_make`, which forwards to `BASE::_make`. -/
def _make (sz : Nat) (allocMem : Nat) (numElements alignment : Int) (zeroed : Bool)
    (rt : Runtime) : Except Failure (MCData_Base × Runtime) :=
  MCData_Base._make sz allocMem numElements alignment zeroed rt

/-- Reading through `operator[](index)`: the value of `pointer[index]`. -/
def get (sz : Nat) (c : MCData_Base) (index : Int) (rt : Runtime) : Nat :=
  readBytes rt.mem (elemAddr sz c.pointer index) sz

/-- The method `set(index, value)`: `pointer[index] = value`. -/
def set (sz : Nat) (c : MCData_Base) (index : Int) (value : Nat) (rt : Runtime) : Runtime :=
  { rt with mem := writeBytes rt.mem (elemAddr sz c.pointer index) sz value }

end MCData_Impl

/-! ## `MCData_Impl<T*>` for class element types -/

namespace MCData_Impl_Obj

open MCData_Base

/-- The object `MCData_Impl<T*>::_make`: `BASE::_make`, then for `i` in
`[0, numElements)` the placement `new` and `_constructor()` of `pointer[i]`, whose
effect on the runtime is `ctor`. -/
def _make (sz : Nat) (ctor : Nat → Runtime → Runtime) (allocMem : Nat)
    (numElements alignment : Int) (zeroed : Bool) (rt : Runtime) :
    Except Failure (MCData_Base × Runtime) :=
  match MCData_Base._make sz allocMem numElements alignment zeroed rt with
  | .error e => .error e
  | .ok (this_, rt1) =>
    .ok (this_, (List.range numElements.toNat).foldl
      (fun r i => ctor (elemAddr sz this_.pointer i) r) rt1)

end MCData_Impl_Obj

/-! ## Builtins and buffers used by the element operations -/

/-- Effect of `memmove(dst, src, n)`: the `n` bytes that were at `src` before the call
are at `dst` afterwards, also when the two ranges overlap. -/
def memmove (dst src n : Nat) (rt : Runtime) : Runtime :=
  { rt with mem := fun q => if dst ≤ q ∧ q < dst + n then rt.mem (src + (q - dst)) else rt.mem q }

/-- The builtin `__sync_fetch_and_add(ptr, value)` on an object of `sz` bytes, as one
indivisible step: the old value is returned, the sum is stored in `sz` bytes. -/
def __sync_fetch_and_add (sz ptr value : Nat) (rt : Runtime) : Nat × Runtime :=
  (readBytes rt.mem ptr sz,
    { rt with mem := writeBytes rt.mem ptr sz (readBytes rt.mem ptr sz + value) })

/-- The builtin `__sync_fetch_and_or(ptr, value)`. -/
def __sync_fetch_and_or (sz ptr value : Nat) (rt : Runtime) : Nat × Runtime :=
  (readBytes rt.mem ptr sz,
    { rt with mem := writeBytes rt.mem ptr sz (readBytes rt.mem ptr sz ||| value) })

/-- The builtin `__sync_fetch_and_and(ptr, value)`. -/
def __sync_fetch_and_and (sz ptr value : Nat) (rt : Runtime) : Nat × Runtime :=
  (readBytes rt.mem ptr sz,
    { rt with mem := writeBytes rt.mem ptr sz (readBytes rt.mem ptr sz &&& value) })

/-- The builtin `__sync_fetch_and_xor(ptr, value)`. -/
def __sync_fetch_and_xor (sz ptr value : Nat) (rt : Runtime) : Nat × Runtime :=
  (readBytes rt.mem ptr sz,
    { rt with mem := writeBytes rt.mem ptr sz (readBytes rt.mem ptr sz ^^^ value) })

/-- The builtin `__sync_bool_compare_and_swap(ptr, expect, value)`. -/
def __sync_bool_compare_and_swap (sz ptr expect value : Nat) (rt : Runtime) :
    Bool × Runtime :=
  if readBytes rt.mem ptr sz = expect then
    (true, { rt with mem := writeBytes rt.mem ptr sz value })
  else (false, rt)

/-- The `n` low bytes of `x`, low byte first. -/
def bytesOf : Nat → Nat → List Nat
  | 0, _ => []
  | n + 1, x => x % 256 :: bytesOf n (x / 256)

/-- Value of a list of bytes, low byte first. -/
def valueOf : List Nat → Nat
  | [] => 0
  | b :: bs => b + 256 * valueOf bs

/-- Signed value of the bit pattern `n` of a two's-complement word of `w` bits. -/
def toSigned (w : Nat) (n : Nat) : Int :=
  if n < 2 ^ (w - 1) then (n : Int) else (n : Int) - (2 : Int) ^ w

/-- Effect of `serialization_buffer::write(x10_long)` on the bytes of the buffer: eight
bytes are appended. -/
def write_long (buf : List Nat) (v : Int) : List Nat :=
  buf ++ bytesOf 8 (toBits 64 v)

/-- Effect of `deserialization_buffer::read<x10_long>()` on the bytes still to be read:
the value of the first eight bytes, and the bytes after them. -/
def read_long (buf : List Nat) : Int × List Nat :=
  (toSigned 64 (valueOf (buf.take 8)), buf.drop 8)

/-- Effect of `serialization_buffer::copyIn(buf, data, length, sizeOfT)`: the
`length * sizeOfT` bytes at `data` are appended. -/
def copyIn (buf : List Nat) (mem : Nat → Nat) (data : Nat) (length : Int) (sizeOfT : Nat) :
    List Nat :=
  buf ++ (List.range (length.toNat * sizeOfT)).map (fun j => mem (data + j))

/-- Effect of `deserialization_buffer::copyOut(buf, data, length, sizeOfT)`: the next
`length * sizeOfT` bytes of the buffer are stored at `data` and consumed. -/
def copyOut (buf : List Nat) (data : Nat) (length : Int) (sizeOfT : Nat) (rt : Runtime) :
    Runtime × List Nat :=
  ({ rt with mem := fun q =>
      if data ≤ q ∧ q < data + length.toNat * sizeOfT then buf.getD (q - data) 0
      else rt.mem q },
    buf.drop (length.toNat * sizeOfT))

/-- Modelled from the spec: the items of the wire format for class elements, which the
header leaves to the buffer and to the element type: the size, one identity-registration
token for each element, and for each reference held by an element either the encoding of
an object seen for the first time or a back-reference to a previously registered
identity. -/
inductive Token where
  | size (v : Int)
  | identity
  | fresh
  | backref (k : Nat)
  deriving DecidableEq, Repr

/-- Modelled from the spec: a buffer for class elements, which is not part of the header:
the tokens (written so far, or still to be read) and the object table, the identities
registered so far in the order of registration. -/
structure ObjectBuffer where
  tokens : List Token
  table : List Nat

namespace ObjectBuffer

/-- Modelled from the spec: `buf.write(size)` of the absent serialization buffer appends
the size. -/
def write (buf : ObjectBuffer) (v : Int) : ObjectBuffer :=
  { buf with tokens := buf.tokens ++ [Token.size v] }

/-- Modelled from the spec: `buf.read<x10_long>()` of the absent deserialization buffer
takes the size from the front of the tokens. -/
def read (buf : ObjectBuffer) : Int × ObjectBuffer :=
  match buf.tokens with
  | Token.size v :: rest => (v, { buf with tokens := rest })
  | _ => (0, { buf with tokens := buf.tokens.drop 1 })

/-- Modelled from the spec: `buf.manually_record_reference(elem)` of the absent
serialization buffer registers the identity of `elem` in the object table and writes the
identity-registration token. -/
def manually_record_reference (elem : Nat) (buf : ObjectBuffer) : ObjectBuffer :=
  { tokens := buf.tokens ++ [Token.identity], table := buf.table ++ [elem] }

/-- Modelled from the spec: `buf.record_reference(elem)` of the absent deserialization
buffer takes the identity-registration token and registers the identity of `elem`, so
that later back-references resolve to it. -/
def record_reference (elem : Nat) (buf : ObjectBuffer) : ObjectBuffer :=
  { tokens := buf.tokens.drop 1, table := buf.table ++ [elem] }

end ObjectBuffer

/-- Modelled from the spec: the element type, which is not part of the header, is a class
with `nf` reference fields; field `j` of the object at `elem` is the pointer stored in
the eight bytes at offset `8 * j`. -/
def refField (mem : Nat → Nat) (elem j : Nat) : Nat :=
  readBytes mem (elem + 8 * j) 8

/-- Modelled from the spec: the references held by the object at `elem`, in field
order. -/
def refFields (nf : Nat) (mem : Nat → Nat) (elem : Nat) : List Nat :=
  (List.range nf).map (fun j => refField mem elem j)

/-- Modelled from the spec: the runtime after the pointers `vals` are stored in the
reference fields `0, 1, ...` of the object at `elem`. -/
def storeRefs (elem : Nat) (vals : List Nat) (rt : Runtime) : Runtime :=
  { rt with mem := fun q =>
      if elem ≤ q ∧ q < elem + 8 * vals.length then
        vals.getD ((q - elem) / 8) 0 / 256 ^ ((q - elem) % 8) % 256
      else rt.mem q }

/-- Modelled from the spec: the object table after the references `refs` are encoded:
an object that is not yet in the table is registered when it is first seen. -/
def encTable : List Nat → List Nat → List Nat
  | [], table => table
  | r :: rs, table => if r ∈ table then encTable rs table else encTable rs (table ++ [r])

/-- Modelled from the spec: the field encoding of the references `refs`: a reference to
an object already in the object table is a back-reference to the position at which it was
registered, any other object is encoded as seen for the first time (one token; the
content of such an object is not modelled). -/
def encTokens : List Nat → List Nat → List Token
  | [], _ => []
  | r :: rs, table =>
    if r ∈ table then Token.backref (table.indexOf r) :: encTokens rs table
    else Token.fresh :: encTokens rs (table ++ [r])

/-- Modelled from the spec: decoding of `m` references: a back-reference resolves to the
identity registered at that position of the object table; an object seen for the first
time is constructed at the address `objAddr k` the allocator gives the `k`-th registered
object, and registered. The result holds the decoded pointers, the tokens left and the
object table. -/
def decodeRefs (objAddr : Nat → Nat) : Nat → List Token → List Nat →
    List Nat × List Token × List Nat
  | 0, ts, table => ([], ts, table)
  | m + 1, Token.backref k :: ts, table =>
    (table.getD k 0 :: (decodeRefs objAddr m ts table).1,
      (decodeRefs objAddr m ts table).2.1, (decodeRefs objAddr m ts table).2.2)
  | m + 1, Token.fresh :: ts, table =>
    (objAddr table.length
        :: (decodeRefs objAddr m ts (table ++ [objAddr table.length])).1,
      (decodeRefs objAddr m ts (table ++ [objAddr table.length])).2.1,
      (decodeRefs objAddr m ts (table ++ [objAddr table.length])).2.2)
  | _ + 1, ts, table => ([], ts, table)

/-- Modelled from the spec: `elem->_serialize_body(buf)` of the absent element type
writes the field encoding of the references the element holds. -/
def _serialize_body (nf : Nat) (mem : Nat → Nat) (elem : Nat) (buf : ObjectBuffer) :
    ObjectBuffer :=
  { tokens := buf.tokens ++ encTokens (refFields nf mem elem) buf.table,
    table := encTable (refFields nf mem elem) buf.table }

/-- Modelled from the spec: `elem->_deserialize_body(buf)` of the absent element type
decodes the `nf` references of the element and stores them in its fields. -/
def _deserialize_body (nf : Nat) (objAddr : Nat → Nat) (elem : Nat)
    (st : Runtime × ObjectBuffer) : Runtime × ObjectBuffer :=
  (storeRefs elem (decodeRefs objAddr nf st.2.tokens st.2.table).1 st.1,
    { tokens := (decodeRefs objAddr nf st.2.tokens st.2.table).2.1,
      table := (decodeRefs objAddr nf st.2.tokens st.2.table).2.2 })

namespace MCData_Base

/-- The method `hashCode()`: `(x10_int)(size_t)pointer`. -/
def hashCode (c : MCData_Base) : Int := toSigned 32 (c.pointer % 2 ^ 32)

/-- The method `equals(THIS other)`. -/
def equals (c other : MCData_Base) : Bool :=
  (c.pointer == other.pointer) && (c.size == other.size)

/-- The method `_struct_equals(THIS other)`. -/
def _struct_equals (c other : MCData_Base) : Bool :=
  (c.pointer == other.pointer) && (c.size == other.size)

end MCData_Base

namespace MCData_Impl

open MCData_Base

/-- The method `atomicAdd(index, value)`. -/
def atomicAdd (sz : Nat) (c : MCData_Base) (index : Int) (value : Nat) (rt : Runtime) :
    Nat × Runtime :=
  __sync_fetch_and_add sz (elemAddr sz c.pointer index) value rt

/-- The method `atomicOr(index, value)`. -/
def atomicOr (sz : Nat) (c : MCData_Base) (index : Int) (value : Nat) (rt : Runtime) :
    Nat × Runtime :=
  __sync_fetch_and_or sz (elemAddr sz c.pointer index) value rt

/-- The method `atomicAnd(index, value)`. -/
def atomicAnd (sz : Nat) (c : MCData_Base) (index : Int) (value : Nat) (rt : Runtime) :
    Nat × Runtime :=
  __sync_fetch_and_and sz (elemAddr sz c.pointer index) value rt

/-- The method `atomicXor(index, value)`. -/
def atomicXor (sz : Nat) (c : MCData_Base) (index : Int) (value : Nat) (rt : Runtime) :
    Nat × Runtime :=
  __sync_fetch_and_xor sz (elemAddr sz c.pointer index) value rt

/-- The method `atomicCAS(index, expect, value)`. -/
def atomicCAS (sz : Nat) (c : MCData_Base) (index : Int) (expect value : Nat)
    (rt : Runtime) : Bool × Runtime :=
  __sync_bool_compare_and_swap sz (elemAddr sz c.pointer index) expect value rt

/-- The static `copy(src, srcIndex, dst, dstIndex, numElems)`: one `memmove` of
`numElems * sizeof(T)` bytes. -/
def copy (sz : Nat) (src : MCData_Base) (srcIndex : Int) (dst : MCData_Base)
    (dstIndex numElems : Int) (rt : Runtime) : Runtime :=
  memmove (elemAddr sz dst.pointer dstIndex) (elemAddr sz src.pointer srcIndex)
    (toBits 64 (numElems * sz)) rt

/-- The static `_serialize(this_, buf)` on the bytes of the buffer. `containsPtrs` is
`getRTT<T>()->containsPtrs`, and `writeT` gives the bytes `buf.write` emits for one
element. -/
def _serialize (sz : Nat) (containsPtrs : Bool) (writeT : Nat → List Nat)
    (this_ : MCData_Base) (rt : Runtime) (buf : List Nat) : List Nat :=
  let size := this_.size
  let data := this_.pointer
  let buf1 := write_long buf size
  if containsPtrs then
    (List.range size.toNat).foldl (fun b (i : Nat) => b ++ writeT (get sz this_ (i : Int) rt)) buf1
  else
    copyIn buf1 rt.mem data size sz

/-- The static `_deserialize(buf)` on the bytes still to be read; `allocAddr` is the
address `alloc_chunk` returns inside `_make`, and `readT` is `buf.read<T>()`. The result
holds the chunk, the runtime and the bytes left in the buffer. -/
def _deserialize (sz : Nat) (containsPtrs : Bool) (readT : List Nat → Nat × List Nat)
    (allocAddr : Nat) (buf : List Nat) (rt : Runtime) :
    Except Failure (MCData_Base × Runtime × List Nat) :=
  let size := (read_long buf).1
  let buf1 := (read_long buf).2
  match _make sz allocAddr size 0 false rt with
  | .error e => .error e
  | .ok (allocMem, rt1) =>
    if containsPtrs then
      let r := (List.range size.toNat).foldl
        (fun (st : Runtime × List Nat) (i : Nat) =>
          (set sz allocMem (i : Int) (readT st.2).1 st.1, (readT st.2).2)) (rt1, buf1)
      .ok (allocMem, r.1, r.2)
    else
      let r := copyOut buf1 allocMem.pointer size sz rt1
      .ok (allocMem, r.1, r.2)

end MCData_Impl

namespace MCData_Impl_Obj

open MCData_Base

/-- The `operator[](index)` of the class specialisation: the address `&pointer[index]`. -/
def get (sz : Nat) (c : MCData_Base) (index : Int) : Nat :=
  elemAddr sz c.pointer index

/-- The object representation of the element at address `elem`. -/
def value (sz : Nat) (elem : Nat) (rt : Runtime) : Nat :=
  readBytes rt.mem elem sz

/-- The method `atomicAdd(index, value)` of the class specialisation. -/
def atomicAdd (_c : MCData_Base) (_index : Int) (_value : Nat) (rt : Runtime) :
    Except Failure (Nat × Runtime) :=
  .ok (NULL, rt)

/-- The method `atomicOr(index, value)` of the class specialisation. -/
def atomicOr (_c : MCData_Base) (_index : Int) (_value : Nat) (rt : Runtime) :
    Except Failure (Nat × Runtime) :=
  .ok (NULL, rt)

/-- The method `atomicAnd(index, value)` of the class specialisation. -/
def atomicAnd (_c : MCData_Base) (_index : Int) (_value : Nat) (rt : Runtime) :
    Except Failure (Nat × Runtime) :=
  .ok (NULL, rt)

/-- The method `atomicXor(index, value)` of the class specialisation. -/
def atomicXor (_c : MCData_Base) (_index : Int) (_value : Nat) (rt : Runtime) :
    Except Failure (Nat × Runtime) :=
  .ok (NULL, rt)

/-- The method `atomicCAS(index, expect, value)` of the class specialisation. -/
def atomicCAS (_c : MCData_Base) (_index : Int) (_expect _value : Nat) (rt : Runtime) :
    Except Failure (Bool × Runtime) :=
  .ok (false, rt)

/-- The element assignment `*dst = *src` of the element type: the `sz` bytes of the
object at `src` become the bytes of the object at `dst`. -/
def assign (sz dst src : Nat) (rt : Runtime) : Runtime :=
  memmove dst src sz rt

/-- The static `copy(src, srcIndex, dst, dstIndex, numElems)` of the class
specialisation: `dst.pointer[i + dstIndex] = src.pointer[i + srcIndex]` for `i` from 0
up to `numElems - 1`. -/
def copy (sz : Nat) (src : MCData_Base) (srcIndex : Int) (dst : MCData_Base)
    (dstIndex numElems : Int) (rt : Runtime) : Runtime :=
  (List.range numElems.toNat).foldl
    (fun r (i : Nat) => assign sz (elemAddr sz dst.pointer ((i : Int) + dstIndex))
      (elemAddr sz src.pointer ((i : Int) + srcIndex)) r) rt

/-- The loop of `_serialize` run for the elements `0 .. k-1`:
`buf.manually_record_reference(elem)` and then `elem->_serialize_body(buf)` with
`elem = &pointer[i]`, for `i` ascending. -/
def serializeLoop (sz nf pointer : Nat) (rt : Runtime) (k : Nat) (buf : ObjectBuffer) :
    ObjectBuffer :=
  (List.range k).foldl
    (fun b (i : Nat) =>
      _serialize_body nf rt.mem (elemAddr sz pointer (i : Int))
        (ObjectBuffer.manually_record_reference (elemAddr sz pointer (i : Int)) b))
    buf

/-- The static `_serialize(this_, buf)` of the class specialisation: `buf.write(size)`,
then the loop over the `size` elements. -/
def _serialize (sz nf : Nat) (this_ : MCData_Base) (rt : Runtime) (buf : ObjectBuffer) :
    ObjectBuffer :=
  serializeLoop sz nf this_.pointer rt this_.size.toNat (buf.write this_.size)

/-- The loop of `_deserialize` run for the elements `0 .. k-1`: the placement
`new (&pointer[i]) T()`, whose effect on the runtime is `newT`, then
`buf.record_reference(elem)` and `elem->_deserialize_body(buf)`, for `i` ascending. -/
def deserializeLoop (sz nf : Nat) (newT : Nat → Runtime → Runtime) (objAddr : Nat → Nat)
    (pointer k : Nat) (st : Runtime × ObjectBuffer) : Runtime × ObjectBuffer :=
  (List.range k).foldl
    (fun (s : Runtime × ObjectBuffer) (i : Nat) =>
      _deserialize_body nf objAddr (elemAddr sz pointer (i : Int))
        (newT (elemAddr sz pointer (i : Int)) s.1,
          ObjectBuffer.record_reference (elemAddr sz pointer (i : Int)) s.2))
    st

/-- The static `_deserialize(buf)` of the class specialisation: `size = buf.read()`,
`allocMem = _make(size, 0, false)`, then the loop over the `size` elements. `ctor` is the
construction done inside `_make`, `allocAddr` the address `alloc_chunk` returns there.
The result holds the chunk, the runtime and the buffer. -/
def _deserialize (sz nf : Nat) (ctor newT : Nat → Runtime → Runtime) (objAddr : Nat → Nat)
    (allocAddr : Nat) (rt : Runtime) (buf : ObjectBuffer) :
    Except Failure (MCData_Base × Runtime × ObjectBuffer) :=
  match _make sz ctor allocAddr buf.read.1 0 false rt with
  | .error e => .error e
  | .ok (allocMem, rt1) =>
    .ok (allocMem,
      (deserializeLoop sz nf newT objAddr allocMem.pointer buf.read.1.toNat
        (rt1, buf.read.2)).1,
      (deserializeLoop sz nf newT objAddr allocMem.pointer buf.read.1.toNat
        (rt1, buf.read.2)).2)

end MCData_Impl_Obj

/-! ## Lemmas and theorems -/

open MCData_Base

theorem testBit_div_pow (x k j : Nat) : (x / 2 ^ k).testBit j = x.testBit (k + j) := by
  rw [← Nat.shiftRight_eq_div_pow, Nat.testBit_shiftRight]

theorem land_mask_eq (x k : Nat) (hx : x < 2 ^ 64) (hk : k ≤ 64) :
    x &&& (2 ^ 64 - 2 ^ k) = 2 ^ k * (x / 2 ^ k) := by
  apply Nat.eq_of_testBit_eq
  intro i
  have hpos : 0 < 2 ^ k := Nat.pow_pos (by decide)
  have hle : (2:Nat) ^ k ≤ 2 ^ 64 := Nat.pow_le_pow_right (by decide) hk
  have h1 : (2:Nat) ^ 64 - 2 ^ k = 2 ^ 64 - ((2 ^ k - 1) + 1) := by omega
  have h2 : (2:Nat) ^ k - 1 < 2 ^ 64 := by omega
  rw [Nat.testBit_and, h1, Nat.testBit_two_pow_sub_succ h2, Nat.testBit_two_pow_sub_one,
    Nat.testBit_mul_pow_two, testBit_div_pow]
  by_cases hi : i < 64
  · by_cases hik : i < k
    · simp [hi, hik]
    · have : k + (i - k) = i := by omega
      simp [hi, hik, this]
      omega
  · have hxi : x.testBit i = false :=
      Nat.testBit_lt_two_pow (Nat.lt_of_lt_of_le hx (Nat.pow_le_pow_right (by decide) (by omega)))
    by_cases hik : k ≤ i
    · have : k + (i - k) = i := by omega
      simp [hi, hik, this, hxi]
    · simp [hi, hik, hxi]

theorem pow_land_pred (k : Nat) : 2 ^ k &&& (2 ^ k - 1) = 0 := by
  rw [Nat.and_pow_two_sub_one_eq_mod, Nat.mod_self]

theorem land_pred_eq_zero : ∀ n : Nat, 0 < n → n &&& (n - 1) = 0 → ∃ k, n = 2 ^ k := by
  intro n
  induction n using Nat.strong_induction_on with
  | _ n ih =>
    intro hn h
    rcases Nat.even_or_odd' n with ⟨m, hm | hm⟩
    · have hm0 : 0 < m := by omega
      have hdiv : (n &&& (n - 1)) / 2 = m &&& (m - 1) := by
        rw [Nat.and_div_two]
        have e1 : n / 2 = m := by omega
        have e2 : (n - 1) / 2 = m - 1 := by omega
        rw [e1, e2]
      rw [h] at hdiv
      obtain ⟨k, hk⟩ := ih m (by omega) hm0 hdiv.symm
      exact ⟨k + 1, by rw [hm, hk, pow_succ]; ring⟩
    · have hbit : (n &&& (n - 1)) / 2 = m := by
        rw [Nat.and_div_two]
        have e1 : n / 2 = m := by omega
        have e2 : (n - 1) / 2 = m := by omega
        rw [e1, e2, Nat.and_self]
      rw [h] at hbit
      exact ⟨0, by simp at hbit; omega⟩


theorem toBits_of_range (w : Nat) (x : Int) (n : Nat) (h : x = n) (hn : n < 2 ^ w) :
    toBits w x = n := by
  subst h
  unfold toBits
  have h1 : ((n : Int) % (2:Int) ^ w) = n := by
    apply Int.emod_eq_of_lt (by omega)
    exact_mod_cast hn
  rw [h1]; simp

theorem toBits_neg (x : Int) (n : Nat) (h : x = -(n : Int)) (h0 : 0 < n) (hn : n ≤ 2 ^ 64) :
    toBits 64 x = 2 ^ 64 - n := by
  subst h
  unfold toBits
  have e : ((2:Int) ^ 64) = 18446744073709551616 := by norm_num
  have e2 : ((2:Nat) ^ 64) = 18446744073709551616 := by norm_num
  rw [e]; rw [e2] at hn ⊢
  omega

theorem make_pow_eq (sz a : Nat) (count : Int) (k : Nat) (zeroed : Bool) (rt : Runtime)
    (hc : count ≠ 0) (hk : k < 31) (ha : a + 2 ^ k ≤ 2 ^ 64) :
    _make sz a count ((2 ^ k : Nat) : Int) zeroed rt =
      .ok (⟨a, 2 ^ k * ((a + (2 ^ k - 1)) / 2 ^ k), count⟩,
        if zeroed then
          memset a 0 (toBits 64 (((2 ^ k : Nat) : Int) + count * sz))
            (alloc_chunk a (toBits 64 (((2 ^ k : Nat) : Int) + count * sz)) rt)
        else alloc_chunk a (toBits 64 (((2 ^ k : Nat) : Int) + count * sz)) rt) := by
  have hpos : 0 < 2 ^ k := Nat.pow_pos (by decide)
  have h30 : (2:Nat) ^ k ≤ 2 ^ 30 := Nat.pow_le_pow_right (by decide) (by omega)
  have e30 : ((2:Nat) ^ 30) = 1073741824 := by norm_num
  have e32 : ((2:Nat) ^ 32) = 4294967296 := by norm_num
  have e64 : ((2:Nat) ^ 64) = 18446744073709551616 := by norm_num
  have b1 : toBits 32 ((2 ^ k : Nat) : Int) = 2 ^ k :=
    toBits_of_range 32 _ _ rfl (by omega)
  have b2 : toBits 32 (((2 ^ k : Nat) : Int) - 1) = 2 ^ k - 1 :=
    toBits_of_range 32 _ _ (by omega) (by omega)
  have b3 : toBits 64 ((a : Int) + (((2 ^ k : Nat) : Int) - 1)) = a + (2 ^ k - 1) :=
    toBits_of_range 64 _ _ (by omega) (by omega)
  have b4 : toBits 64 (bitNot (((2 ^ k : Nat) : Int) - 1)) = 2 ^ 64 - 2 ^ k :=
    toBits_neg _ _ (by unfold bitNot; omega) hpos (by omega)
  have hgt : ((2 ^ k : Nat) : Int) > 0 := by omega
  unfold _make
  simp only [if_neg hc, b1, b2, pow_land_pred, b3, b4, ne_eq, not_true_eq_false, if_false,
    if_pos hgt]
  rw [land_mask_eq _ k (by omega) (by omega)]
  unfold make3 NULL
  split
  · next h0 =>
    have : a = 0 := by
      rcases Nat.eq_zero_or_pos a with h | h
      · exact h
      · exfalso
        have : 1 ≤ (a + (2 ^ k - 1)) / 2 ^ k := by
          rw [Nat.le_div_iff_mul_le hpos]; omega
        have := Nat.mul_le_mul_left (2 ^ k) this
        omega
    rw [h0, this]
  · rfl


theorem make_zero_eq (sz a : Nat) (count : Int) (zeroed : Bool) (rt : Runtime)
    (hc : count ≠ 0) :
    _make sz a count 0 zeroed rt =
      .ok (⟨a, a, count⟩,
        if zeroed then
          memset a 0 (toBits 64 (0 + count * sz)) (alloc_chunk a (toBits 64 (0 + count * sz)) rt)
        else alloc_chunk a (toBits 64 (0 + count * sz)) rt) := by
  have b1 : toBits 32 0 &&& toBits 32 (0 - 1) = 0 := by rfl
  unfold _make
  simp only [if_neg hc, b1, ne_eq, not_true_eq_false, if_false, gt_iff_lt, lt_self_iff_false]
  unfold make3
  split <;> rfl

theorem elemAddr_nat (sz p n : Nat) (h : p + n * sz < 2 ^ 64) :
    elemAddr sz p (n : Int) = p + n * sz := by
  unfold elemAddr
  exact toBits_of_range 64 _ _ (by push_cast; ring) h

theorem readBytes_congr (m1 m2 : Nat → Nat) (addr : Nat) :
    ∀ n, (∀ j, j < n → m1 (addr + j) = m2 (addr + j)) →
      readBytes m1 addr n = readBytes m2 addr n := by
  intro n
  induction n with
  | zero => intro _; rfl
  | succ n ih =>
    intro h
    simp only [readBytes]
    rw [ih (fun j hj => h j (by omega)), h n (by omega)]

theorem readBytes_zero (m : Nat → Nat) (addr : Nat) :
    ∀ n, (∀ j, j < n → m (addr + j) = 0) → readBytes m addr n = 0 := by
  intro n
  induction n with
  | zero => intro _; rfl
  | succ n ih =>
    intro h
    simp only [readBytes]
    rw [ih (fun j hj => h j (by omega)), h n (by omega)]
    simp

theorem readBytes_writeBytes (m : Nat → Nat) (addr n x : Nat) :
    ∀ k, k ≤ n → readBytes (writeBytes m addr n x) addr k = x % 256 ^ k := by
  intro k
  induction k with
  | zero => intro _; simp [readBytes, Nat.mod_one]
  | succ k ih =>
    intro h
    simp only [readBytes]
    rw [ih (by omega), Nat.mod_pow_succ]
    have hw : writeBytes m addr n x (addr + k) = x / 256 ^ k % 256 := by
      unfold writeBytes
      have : addr ≤ addr + k ∧ addr + k < addr + n := by omega
      rw [if_pos this]
      simp
    rw [hw, Nat.mul_comm]

/-- C5: `_make` with `numElements == 0` returns the empty chunk, the one the default
constructor builds, for every alignment and `zeroed` flag, in the scalar and in the object
specialisation; the runtime is left as it was (no block handed out, no constructor run,
no byte written), whatever the allocator and the element constructor would do. -/
theorem make_zero_elements (sz allocMem : Nat) (alignment : Int) (zeroed : Bool)
    (rt : Runtime) (ctor : Nat → Runtime → Runtime) :
    MCData_Base._make sz allocMem 0 alignment zeroed rt = .ok (MCData_Base.empty, rt) ∧
    MCData_Impl._make sz allocMem 0 alignment zeroed rt = .ok (MCData_Base.empty, rt) ∧
    MCData_Impl_Obj._make sz ctor allocMem 0 alignment zeroed rt
      = .ok (MCData_Base.empty, rt) ∧
    MCData_Base.empty.head = NULL ∧ MCData_Base.empty.pointer = NULL ∧
    MCData_Base.empty.size = 0 := by
  have h : MCData_Base._make sz allocMem 0 alignment zeroed rt
      = .ok (MCData_Base.empty, rt) := by
    simp [MCData_Base._make, make3, MCData_Base.empty]
  refine ⟨h, h, ?_, rfl, rfl, rfl⟩
  unfold MCData_Impl_Obj._make
  rw [h]
  rfl

/-- C7: `del` on a chunk with `head != pointer` throws `UnsupportedOperationException`;
the fields of the chunk and the whole runtime (live blocks and memory) stay as they
were. -/
theorem del_view_fails (c : MCData_Base) (rt : Runtime) (h : c.head ≠ c.pointer) :
    del c rt = (.error Failure.UnsupportedOperationException, c, rt) ∧
    (del c rt).2.1.head = c.head ∧ (del c rt).2.1.pointer = c.pointer ∧
    (del c rt).2.1.size = c.size ∧ (del c rt).2.2.live = rt.live := by
  have e : del c rt = (.error Failure.UnsupportedOperationException, c, rt) := by
    unfold del
    rw [if_pos h]
  rw [e]
  exact ⟨rfl, rfl, rfl, rfl, rfl⟩

theorem del_view_fails_witness :
    (4112 : Nat) ≠ 4160 ∧
    (del ⟨4112, 4160, 4⟩ Runtime.init
        = (.error Failure.UnsupportedOperationException, ⟨4112, 4160, 4⟩, Runtime.init) ∧
      (del ⟨4112, 4160, 4⟩ Runtime.init).2.1.head = 4112 ∧
      (del ⟨4112, 4160, 4⟩ Runtime.init).2.1.pointer = 4160 ∧
      (del ⟨4112, 4160, 4⟩ Runtime.init).2.1.size = 4 ∧
      (del ⟨4112, 4160, 4⟩ Runtime.init).2.2.live = Runtime.init.live) :=
  ⟨by decide, del_view_fails ⟨4112, 4160, 4⟩ Runtime.init (by decide)⟩

theorem dealloc_not_live (p : Nat) (rt : Runtime) (hp : p ≠ NULL) (n : Nat) :
    (p, n) ∉ (dealloc p rt).live := by
  unfold dealloc
  rw [if_neg hp]
  simp

theorem dealloc_keeps (p : Nat) (rt : Runtime) (b : Nat × Nat) (hb : b ∈ rt.live)
    (hne : b.1 ≠ p) : b ∈ (dealloc p rt).live := by
  unfold dealloc
  split
  · exact hb
  · simp [hb, hne]

theorem dealloc_mem (p : Nat) (rt : Runtime) : (dealloc p rt).mem = rt.mem := by
  unfold dealloc
  split <;> rfl

/-- C8: `del` on a chunk with `head == pointer` raises nothing, hands the block at `head`
back to the runtime (it is no longer live, every other live block still is, memory is not
written) and leaves the chunk empty; `del` on the chunk it leaves raises nothing either
and changes neither the chunk nor the runtime. -/
theorem del_owner_resets (c : MCData_Base) (rt : Runtime) (h : c.head = c.pointer) :
    del c rt = (.ok (), MCData_Base.empty, dealloc c.head rt) ∧
    (c.head ≠ NULL → ∀ n, (c.head, n) ∉ (del c rt).2.2.live) ∧
    (∀ b, b ∈ rt.live → b.1 ≠ c.head → b ∈ (del c rt).2.2.live) ∧
    (del c rt).2.2.mem = rt.mem ∧
    del (del c rt).2.1 (del c rt).2.2 = (.ok (), MCData_Base.empty, (del c rt).2.2) := by
  have e : del c rt = (.ok (), MCData_Base.empty, dealloc c.head rt) := by
    unfold del
    rw [if_neg (by simpa using h)]
    rfl
  rw [e]
  refine ⟨rfl, ?_, ?_, ?_, ?_⟩
  · intro hp n
    exact dealloc_not_live c.head rt hp n
  · intro b hb hne
    exact dealloc_keeps c.head rt b hb hne
  · exact dealloc_mem c.head rt
  · rfl

theorem del_owner_resets_witness :
    (4096 : Nat) = 4096 ∧
    (del ⟨4096, 4096, 4⟩ (alloc_chunk 4096 32 Runtime.init)
        = (.ok (), MCData_Base.empty, dealloc 4096 (alloc_chunk 4096 32 Runtime.init)) ∧
      ((4096 : Nat) ≠ NULL → ∀ n,
        (4096, n) ∉ (del ⟨4096, 4096, 4⟩ (alloc_chunk 4096 32 Runtime.init)).2.2.live) ∧
      (∀ b, b ∈ (alloc_chunk 4096 32 Runtime.init).live → b.1 ≠ 4096 →
        b ∈ (del ⟨4096, 4096, 4⟩ (alloc_chunk 4096 32 Runtime.init)).2.2.live) ∧
      (del ⟨4096, 4096, 4⟩ (alloc_chunk 4096 32 Runtime.init)).2.2.mem
        = (alloc_chunk 4096 32 Runtime.init).mem ∧
      del (del ⟨4096, 4096, 4⟩ (alloc_chunk 4096 32 Runtime.init)).2.1
          (del ⟨4096, 4096, 4⟩ (alloc_chunk 4096 32 Runtime.init)).2.2
        = (.ok (), MCData_Base.empty,
            (del ⟨4096, 4096, 4⟩ (alloc_chunk 4096 32 Runtime.init)).2.2)) :=
  ⟨rfl, del_owner_resets ⟨4096, 4096, 4⟩ (alloc_chunk 4096 32 Runtime.init) rfl⟩


theorem make_ok (sz a : Nat) (zeroed : Bool) (rt : Runtime) (n al : Nat) (hn : 0 < n)
    (hal : al = 0 ∨ ∃ k : Nat, k < 31 ∧ al = 2 ^ k)
    (hsize : al + n * sz < 2 ^ 64) (hfit : a + (al + n * sz) ≤ 2 ^ 64) :
    ∃ p, _make sz a (n : Int) (al : Int) zeroed rt =
        .ok (⟨a, p, (n : Int)⟩,
          if zeroed then memset a 0 (al + n * sz) (alloc_chunk a (al + n * sz) rt)
          else alloc_chunk a (al + n * sz) rt) ∧
      a ≤ p ∧ p ≤ a + al := by
  have hc : (n : Int) ≠ 0 := by omega
  have hb : toBits 64 ((al : Int) + (n : Int) * (sz : Int)) = al + n * sz :=
    toBits_of_range 64 _ _ (by push_cast; ring) hsize
  rcases hal with h0 | ⟨k, hk, hpow⟩
  · subst h0
    refine ⟨a, ?_, le_refl _, by omega⟩
    have := make_zero_eq sz a (n : Int) zeroed rt hc
    simp only [Nat.cast_zero] at hb ⊢
    rw [this, hb]
  · subst hpow
    have hpos : 0 < 2 ^ k := Nat.pow_pos (by decide)
    refine ⟨2 ^ k * ((a + (2 ^ k - 1)) / 2 ^ k), ?_, ?_, ?_⟩
    · rw [make_pow_eq sz a (n : Int) k zeroed rt hc hk (by omega), hb]
    · have := Nat.div_add_mod (a + (2 ^ k - 1)) (2 ^ k)
      have := Nat.mod_lt (a + (2 ^ k - 1)) hpos
      omega
    · have := Nat.div_add_mod (a + (2 ^ k - 1)) (2 ^ k)
      omega

/-- C2: for `numElements > 0` and `alignment = 2^k` (a positive `x10_int`, so `k < 31`),
when the address `allocMem` returned by the allocator leaves room for the alignment
padding below `2^64`, `_make` returns a chunk with `size == numElements`,
`head == allocMem` and `pointer` the least multiple of `alignment` that is `>= head`, so
`pointer % alignment == 0` and `head <= pointer < head + alignment`; for
`alignment == 0` it returns `pointer == head`. -/
theorem make_pointer_first_aligned (sz allocMem : Nat) (count : Int) (k : Nat)
    (zeroed : Bool) (rt : Runtime)
    (hcount : 0 < count) (hk : k < 31) (hfit : allocMem + 2 ^ k ≤ 2 ^ 64) :
    (∃ c rt', MCData_Base._make sz allocMem count ((2 : Int) ^ k) zeroed rt = .ok (c, rt') ∧
      c.size = count ∧ c.head = allocMem ∧ c.pointer % 2 ^ k = 0 ∧
      c.head ≤ c.pointer ∧ c.pointer < c.head + 2 ^ k ∧
      ∀ q, c.head ≤ q → q % 2 ^ k = 0 → c.pointer ≤ q) ∧
    (∃ c rt', MCData_Base._make sz allocMem count 0 zeroed rt = .ok (c, rt') ∧
      c.size = count ∧ c.head = allocMem ∧ c.pointer = c.head) := by
  have hc : count ≠ 0 := by omega
  have hpos : 0 < 2 ^ k := Nat.pow_pos (by decide)
  constructor
  · have hcast : ((2 : Int) ^ k) = ((2 ^ k : Nat) : Int) := by push_cast; rfl
    rw [hcast, make_pow_eq sz allocMem count k zeroed rt hc hk hfit]
    refine ⟨_, _, rfl, rfl, rfl, ?_, ?_, ?_, ?_⟩
    · exact Nat.mul_mod_right _ _
    · show allocMem ≤ 2 ^ k * ((allocMem + (2 ^ k - 1)) / 2 ^ k)
      have := Nat.div_add_mod (allocMem + (2 ^ k - 1)) (2 ^ k)
      have := Nat.mod_lt (allocMem + (2 ^ k - 1)) hpos
      omega
    · show 2 ^ k * ((allocMem + (2 ^ k - 1)) / 2 ^ k) < allocMem + 2 ^ k
      have := Nat.div_add_mod (allocMem + (2 ^ k - 1)) (2 ^ k)
      omega
    · intro q hq hmod
      show 2 ^ k * ((allocMem + (2 ^ k - 1)) / 2 ^ k) ≤ q
      have hq' : allocMem ≤ q := hq
      have h1 := Nat.div_add_mod (allocMem + (2 ^ k - 1)) (2 ^ k)
      have h2 := Nat.div_add_mod q (2 ^ k)
      rw [hmod] at h2
      by_contra hlt
      have hlt' : 2 ^ k * (q / 2 ^ k) < 2 ^ k * ((allocMem + (2 ^ k - 1)) / 2 ^ k) := by
        omega
      have hd : q / 2 ^ k + 1 ≤ (allocMem + (2 ^ k - 1)) / 2 ^ k :=
        Nat.lt_of_mul_lt_mul_left hlt'
      have hm := Nat.mul_le_mul_left (2 ^ k) hd
      rw [Nat.mul_add, Nat.mul_one] at hm
      omega
  · rw [make_zero_eq sz allocMem count zeroed rt hc]
    exact ⟨_, _, rfl, rfl, rfl, rfl⟩

theorem make_pointer_first_aligned_witness :
    (0 : Int) < 4 ∧ 6 < 31 ∧ 4112 + 2 ^ 6 ≤ 2 ^ 64 ∧
    ((∃ c rt', MCData_Base._make 8 4112 4 ((2 : Int) ^ 6) true Runtime.init = .ok (c, rt') ∧
      c.size = 4 ∧ c.head = 4112 ∧ c.pointer % 2 ^ 6 = 0 ∧
      c.head ≤ c.pointer ∧ c.pointer < c.head + 2 ^ 6 ∧
      ∀ q, c.head ≤ q → q % 2 ^ 6 = 0 → c.pointer ≤ q) ∧
    (∃ c rt', MCData_Base._make 8 4112 4 0 true Runtime.init = .ok (c, rt') ∧
      c.size = 4 ∧ c.head = 4112 ∧ c.pointer = c.head)) :=
  ⟨by decide, by decide, by decide,
    make_pointer_first_aligned 8 4112 4 6 true Runtime.init (by decide) (by decide)
      (by decide)⟩

/-- C3: for `numElements > 0`, `sizeof(ELEM) > 0` and `alignment` zero or a power of two, when
`alignment + numElements*sizeof(ELEM)` does not overflow 64 bits and the block of that
many bytes at the returned address lies in the address space, `_make` reserves exactly
that block and the storage of the chunk lies inside it: `head <= pointer`,
`pointer + numElements*sizeof(ELEM) <= head + alignment + numElements*sizeof(ELEM)`, and
for every index `0 <= i < numElements` the `sizeof(ELEM)` bytes of element `i` are bytes
of the block. -/
theorem make_storage_in_block (sz allocMem : Nat) (count alignment : Int) (zeroed : Bool)
    (rt : Runtime) (hsz : 0 < sz) (hcount : 0 < count)
    (hal : alignment = 0 ∨ ∃ k : Nat, k < 31 ∧ alignment = 2 ^ k)
    (hsize : alignment + count * sz < 2 ^ 64)
    (hfit : allocMem + (alignment + count * sz) ≤ 2 ^ 64) :
    ∃ c rt', MCData_Base._make sz allocMem count alignment zeroed rt = .ok (c, rt') ∧
      c.head = allocMem ∧
      (c.head, (alignment + count * sz).toNat) ∈ rt'.live ∧
      c.head ≤ c.pointer ∧
      (c.pointer : Int) + count * sz ≤ c.head + alignment + count * sz ∧
      ∀ i : Int, 0 ≤ i → i < count →
        c.head ≤ elemAddr sz c.pointer i ∧
        (elemAddr sz c.pointer i : Int) + sz ≤ c.head + (alignment + count * sz) := by
  obtain ⟨n, rfl⟩ := Int.eq_ofNat_of_zero_le (le_of_lt hcount)
  obtain ⟨al, rfl, hal'⟩ : ∃ al : Nat, alignment = al ∧
      (al = 0 ∨ ∃ k : Nat, k < 31 ∧ al = 2 ^ k) := by
    rcases hal with h | ⟨k, hk, h⟩
    · exact ⟨0, by simpa using h, Or.inl rfl⟩
    · exact ⟨2 ^ k, by simpa using h, Or.inr ⟨k, hk, rfl⟩⟩
  have hn : 0 < n := by omega
  have hsize' : al + n * sz < 2 ^ 64 := by exact_mod_cast hsize
  have hfit' : allocMem + (al + n * sz) ≤ 2 ^ 64 := by exact_mod_cast hfit
  obtain ⟨p, hmk, hp1, hp2⟩ := make_ok sz allocMem zeroed rt n al hn hal' hsize' hfit'
  refine ⟨_, _, hmk, rfl, ?_, hp1, ?_, ?_⟩
  · have e : ((al : Int) + (n : Int) * (sz : Int)).toNat = al + n * sz := by
      have : ((al : Int) + (n : Int) * (sz : Int)) = ((al + n * sz : Nat) : Int) := by
        push_cast; ring
      rw [this, Int.toNat_ofNat]
    simp only [Int.ofNat_eq_coe, e]
    cases zeroed <;> simp [memset, alloc_chunk]
  · show (p : Int) + (n : Int) * sz ≤ allocMem + al + (n : Int) * sz
    omega
  · intro i hi0 hin
    obtain ⟨j, rfl⟩ := Int.eq_ofNat_of_zero_le hi0
    have hjn : j + 1 ≤ n := by omega
    have hmul := Nat.mul_le_mul_right sz hjn
    rw [Nat.add_mul, Nat.one_mul] at hmul
    have haddr : elemAddr sz p (j : Int) = p + j * sz :=
      elemAddr_nat sz p j (by omega)
    show allocMem ≤ elemAddr sz p (j : Int) ∧
      (elemAddr sz p (j : Int) : Int) + sz ≤ allocMem + ((al : Int) + (n : Int) * sz)
    rw [haddr]
    constructor
    · omega
    · have : ((p + j * sz : Nat) : Int) + sz ≤ ((allocMem + (al + n * sz) : Nat) : Int) := by
        exact_mod_cast (by omega : p + j * sz + sz ≤ allocMem + (al + n * sz))
      push_cast at this ⊢
      linarith


theorem make_storage_in_block_witness :
    0 < 8 ∧ (0 : Int) < 4 ∧ ((64 : Int) = 0 ∨ ∃ k : Nat, k < 31 ∧ (64 : Int) = 2 ^ k) ∧
    (64 : Int) + 4 * (8 : Nat) < 2 ^ 64 ∧
    ((4112 : Nat) : Int) + (64 + 4 * (8 : Nat)) ≤ 2 ^ 64 ∧
    ∃ c rt', MCData_Base._make 8 4112 4 64 false Runtime.init = .ok (c, rt') ∧
      c.head = 4112 ∧
      (c.head, ((64 : Int) + 4 * (8 : Nat)).toNat) ∈ rt'.live ∧
      c.head ≤ c.pointer ∧
      (c.pointer : Int) + 4 * (8 : Nat) ≤ c.head + 64 + 4 * (8 : Nat) ∧
      ∀ i : Int, 0 ≤ i → i < 4 →
        c.head ≤ elemAddr 8 c.pointer i ∧
        (elemAddr 8 c.pointer i : Int) + (8 : Nat) ≤ c.head + (64 + 4 * (8 : Nat)) :=
  ⟨by decide, by decide, Or.inr ⟨6, by decide, by decide⟩, by decide, by decide,
    make_storage_in_block 8 4112 4 64 false Runtime.init (by decide) (by decide)
      (Or.inr ⟨6, by decide, by decide⟩) (by decide) (by decide)⟩

/-- C4 (as amended): for `numElements > 0` and `alignment` zero or a power of two, when
`alignment + numElements*sizeof(ELEM)` does not overflow 64 bits and the block of that
many bytes at the returned address lies in the address space, `_make` with
`zeroed == true` returns a scalar chunk whose element `i` reads as zero for every
`0 <= i < numElements`, whatever memory held before. -/
theorem make_zeroed_reads_zero (sz allocMem : Nat) (count alignment : Int) (rt : Runtime)
    (hcount : 0 < count)
    (hal : alignment = 0 ∨ ∃ k : Nat, k < 31 ∧ alignment = 2 ^ k)
    (hsize : alignment + count * sz < 2 ^ 64)
    (hfit : allocMem + (alignment + count * sz) ≤ 2 ^ 64) :
    ∃ c rt', MCData_Impl._make sz allocMem count alignment true rt = .ok (c, rt') ∧
      c.size = count ∧
      ∀ i : Int, 0 ≤ i → i < count → MCData_Impl.get sz c i rt' = 0 := by
  obtain ⟨n, rfl⟩ := Int.eq_ofNat_of_zero_le (le_of_lt hcount)
  obtain ⟨al, rfl, hal'⟩ : ∃ al : Nat, alignment = al ∧
      (al = 0 ∨ ∃ k : Nat, k < 31 ∧ al = 2 ^ k) := by
    rcases hal with h | ⟨k, hk, h⟩
    · exact ⟨0, by simpa using h, Or.inl rfl⟩
    · exact ⟨2 ^ k, by simpa using h, Or.inr ⟨k, hk, rfl⟩⟩
  have hn : 0 < n := by omega
  have hsize' : al + n * sz < 2 ^ 64 := by exact_mod_cast hsize
  have hfit' : allocMem + (al + n * sz) ≤ 2 ^ 64 := by exact_mod_cast hfit
  obtain ⟨p, hmk, hp1, hp2⟩ := make_ok sz allocMem true rt n al hn hal' hsize' hfit'
  refine ⟨_, _, hmk, rfl, ?_⟩
  intro i hi0 hin
  obtain ⟨j, rfl⟩ := Int.eq_ofNat_of_zero_le hi0
  rcases Nat.eq_zero_or_pos sz with hz | hsz
  · subst hz; rfl
  · have hjn : j + 1 ≤ n := by omega
    have hmul := Nat.mul_le_mul_right sz hjn
    rw [Nat.add_mul, Nat.one_mul] at hmul
    have haddr : elemAddr sz p (j : Int) = p + j * sz := elemAddr_nat sz p j (by omega)
    show readBytes _ (elemAddr sz p (j : Int)) sz = 0
    rw [haddr]
    apply readBytes_zero
    intro b hb
    simp only [if_true, memset]
    rw [if_pos (by omega)]

theorem make_zeroed_reads_zero_witness :
    (0 : Int) < 4 ∧ ((64 : Int) = 0 ∨ ∃ k : Nat, k < 31 ∧ (64 : Int) = 2 ^ k) ∧
    (64 : Int) + 4 * (8 : Nat) < 2 ^ 64 ∧
    ((4112 : Nat) : Int) + (64 + 4 * (8 : Nat)) ≤ 2 ^ 64 ∧
    ∃ c rt', MCData_Impl._make 8 4112 4 64 true ⟨fun _ => 255, []⟩ = .ok (c, rt') ∧
      c.size = 4 ∧
      ∀ i : Int, 0 ≤ i → i < 4 → MCData_Impl.get 8 c i rt' = 0 :=
  ⟨by decide, Or.inr ⟨6, by decide, by decide⟩, by decide, by decide,
    make_zeroed_reads_zero 8 4112 4 64 ⟨fun _ => 255, []⟩ (by decide)
      (Or.inr ⟨6, by decide, by decide⟩) (by decide) (by decide)⟩

/-- C4 (counterexample): with `numElements = 2^61 + 1`, `alignment == 64` and
`sizeof(ELEM) == 8` the size `64 + numElements*8` wraps to 72, so `_make` with
`zeroed == true` reserves and zero-fills the 72 bytes at 4112 only; the chunk has
`pointer == 4160` and `size == 2^61 + 1`, and its element 3, at 4184, lies past the
fill and reads as what memory held before, here `2^64 - 1`. -/
theorem make_zeroed_overflow_reads_old_memory :
    (0 : Int) < 2 ^ 61 + 1 ∧
    ((64 : Int) = 0 ∨ ∃ k : Nat, k < 31 ∧ (64 : Int) = 2 ^ k) ∧
    MCData_Impl._make 8 4112 (2 ^ 61 + 1) 64 true ⟨fun _ => 255, []⟩
      = .ok (⟨4112, 4160, 2 ^ 61 + 1⟩,
          memset 4112 0 72 (alloc_chunk 4112 72 ⟨fun _ => 255, []⟩)) ∧
    (0 : Int) ≤ 3 ∧ (3 : Int) < 2 ^ 61 + 1 ∧
    MCData_Impl.get 8 ⟨4112, 4160, 2 ^ 61 + 1⟩ 3
        (memset 4112 0 72 (alloc_chunk 4112 72 ⟨fun _ => 255, []⟩)) = 2 ^ 64 - 1 ∧
    MCData_Impl.get 8 ⟨4112, 4160, 2 ^ 61 + 1⟩ 3
        (memset 4112 0 72 (alloc_chunk 4112 72 ⟨fun _ => 255, []⟩)) ≠ 0 :=
  ⟨by decide, Or.inr ⟨6, by decide, by decide⟩, rfl, by decide, by decide, rfl,
    by decide⟩

/-- C1 (defect): with `alignment == 64` and the allocator returning `4112`, which is not a
multiple of 64, `_make` returns `head == 4112`, `pointer == 4160`; `del` on that chunk
throws `UnsupportedOperationException` and the block it allocated stays live. -/
theorem make_aligned_then_del_throws :
    MCData_Base._make 8 4112 1 64 false Runtime.init
      = .ok (⟨4112, 4160, 1⟩, alloc_chunk 4112 72 Runtime.init) ∧
    del ⟨4112, 4160, 1⟩ (alloc_chunk 4112 72 Runtime.init)
      = (.error Failure.UnsupportedOperationException, ⟨4112, 4160, 1⟩,
          alloc_chunk 4112 72 Runtime.init) ∧
    (del ⟨4112, 4160, 1⟩ (alloc_chunk 4112 72 Runtime.init)).2.2.live = [(4112, 72)] :=
  ⟨rfl, rfl, rfl⟩

/-- C9 (defect): the view of offset 0 and length 2 of the chunk `_make` returns for
4 elements with `alignment == 0` has `head == pointer`; `del` on the view raises nothing
and hands the block it shares with its source back to the runtime. -/
theorem view_at_offset_zero_del_frees :
    MCData_Base._make 8 4096 4 0 false Runtime.init
      = .ok (⟨4096, 4096, 4⟩, alloc_chunk 4096 32 Runtime.init) ∧
    make3 4096 (elemAddr 8 4096 0) 2 = ⟨4096, 4096, 2⟩ ∧
    (del ⟨4096, 4096, 2⟩ (alloc_chunk 4096 32 Runtime.init)).1 = .ok () ∧
    (alloc_chunk 4096 32 Runtime.init).live = [(4096, 32)] ∧
    (del ⟨4096, 4096, 2⟩ (alloc_chunk 4096 32 Runtime.init)).2.2.live = [] :=
  ⟨rfl, rfl, rfl, rfl, rfl⟩


theorem assertion_fails (alignment : Int) (hlo : -2 ^ 31 < alignment)
    (hhi : alignment < 2 ^ 31) (h0 : alignment ≠ 0)
    (hpow : ∀ k : Nat, k < 31 → alignment ≠ 2 ^ k) :
    toBits 32 alignment &&& toBits 32 (alignment - 1) ≠ 0 := by
  have e31 : ((2 : Int) ^ 31) = 2147483648 := by norm_num
  have e32 : ((2 : Int) ^ 32) = 4294967296 := by norm_num
  rw [e31] at hlo hhi
  have hn1 : toBits 32 (alignment - 1) = toBits 32 alignment - 1 := by
    unfold toBits
    rw [e32]
    omega
  have hnpos : 0 < toBits 32 alignment := by
    unfold toBits
    rw [e32]
    omega
  rw [hn1]
  intro hz
  obtain ⟨j, hj⟩ := land_pred_eq_zero _ hnpos hz
  have hval : (0 < alignment ∧ (toBits 32 alignment : Int) = alignment) ∨
      (alignment < 0 ∧ (toBits 32 alignment : Int) = alignment + 4294967296) := by
    unfold toBits
    rw [e32]
    omega
  rcases Nat.lt_or_ge j 31 with hj31 | hj31
  · have hle : (2 : Nat) ^ j ≤ 2 ^ 30 := Nat.pow_le_pow_right (by decide) (by omega)
    have e30 : ((2 : Nat) ^ 30) = 1073741824 := by norm_num
    rcases hval with ⟨_, hv⟩ | ⟨hneg, hv⟩
    · apply hpow j hj31
      rw [← hv, hj]
      push_cast; rfl
    · rw [hj] at hv
      have : ((2 ^ j : Nat) : Int) ≤ 1073741824 := by exact_mod_cast (by omega : 2 ^ j ≤ 1073741824)
      omega
  · rcases Nat.lt_or_ge j 32 with hj32 | hj32
    · have : j = 31 := by omega
      subst this
      rw [hj] at hval
      norm_num at hval
      omega
    · have hge : (2 : Nat) ^ 32 ≤ 2 ^ j := Nat.pow_le_pow_right (by decide) hj32
      have e32n : ((2 : Nat) ^ 32) = 4294967296 := by norm_num
      have hlt : toBits 32 alignment < 4294967296 := by
        unfold toBits
        rw [e32]
        omega
      omega

/-- C6 (as amended): for `numElements != 0`, an `alignment` in the `x10_int` range above
`-2^31` that is neither 0 nor a power of two makes the assertion of `_make` fail, in the
base, the scalar and the object specialisation, so no chunk is returned; for
`numElements == 0` the empty chunk is returned before the alignment is looked at. -/
theorem make_rejects_alignment (sz allocMem : Nat) (count alignment : Int) (zeroed : Bool)
    (rt : Runtime) (ctor : Nat → Runtime → Runtime) (hc : count ≠ 0)
    (hlo : -2 ^ 31 < alignment) (hhi : alignment < 2 ^ 31) (h0 : alignment ≠ 0)
    (hpow : ∀ k : Nat, k < 31 → alignment ≠ 2 ^ k) :
    MCData_Base._make sz allocMem count alignment zeroed rt
      = .error Failure.AssertionFailed ∧
    MCData_Impl._make sz allocMem count alignment zeroed rt
      = .error Failure.AssertionFailed ∧
    MCData_Impl_Obj._make sz ctor allocMem count alignment zeroed rt
      = .error Failure.AssertionFailed ∧
    MCData_Base._make sz allocMem 0 alignment zeroed rt = .ok (MCData_Base.empty, rt) := by
  have h : MCData_Base._make sz allocMem count alignment zeroed rt
      = .error Failure.AssertionFailed := by
    unfold MCData_Base._make
    rw [if_neg hc, if_pos (assertion_fails alignment hlo hhi h0 hpow)]
  refine ⟨h, h, ?_, ?_⟩
  · unfold MCData_Impl_Obj._make
    rw [h]
  · simp [MCData_Base._make, make3, MCData_Base.empty]

theorem make_rejects_alignment_witness :
    (4 : Int) ≠ 0 ∧ -2 ^ 31 < (48 : Int) ∧ (48 : Int) < 2 ^ 31 ∧ (48 : Int) ≠ 0 ∧
    (∀ k : Nat, k < 31 → (48 : Int) ≠ 2 ^ k) ∧
    (MCData_Base._make 8 4112 4 48 true Runtime.init = .error Failure.AssertionFailed ∧
      MCData_Impl._make 8 4112 4 48 true Runtime.init = .error Failure.AssertionFailed ∧
      MCData_Impl_Obj._make 8 (fun _ r => r) 4112 4 48 true Runtime.init
        = .error Failure.AssertionFailed ∧
      MCData_Base._make 8 4112 0 48 true Runtime.init
        = .ok (MCData_Base.empty, Runtime.init)) :=
  ⟨by decide, by decide, by decide, by decide, by decide,
    make_rejects_alignment 8 4112 4 48 true Runtime.init (fun _ r => r) (by decide)
      (by decide) (by decide) (by decide) (by decide)⟩

/-- C6 (counterexample): `alignment == 3` is neither 0 nor a power of two, yet `_make`
with `numElements == 0` returns a chunk, the empty one, and no assertion fails. -/
theorem make_zero_count_skips_assertion :
    (3 : Int) ≠ 0 ∧ (∀ k : Nat, (3 : Int) ≠ 2 ^ k) ∧
    MCData_Base._make 8 4112 0 3 false Runtime.init
      = .ok (MCData_Base.empty, Runtime.init) ∧
    MCData_Base._make 8 4112 0 3 false Runtime.init ≠ .error Failure.AssertionFailed := by
  refine ⟨by decide, ?_, rfl, ?_⟩
  · intro k
    cases k with
    | zero => decide
    | succ k =>
      rw [pow_succ]
      omega
  · intro h
    cases h


theorem make3_pointer_null (h p : Nat) (n : Int) :
    (make3 h p n).pointer = NULL → (make3 h p n).head = NULL := by
  unfold make3
  split
  · intro hp; exact hp
  · next hne => intro hp; exact absurd hp hne

theorem readBytes_writeBytes_same (m : Nat → Nat) (addr n x : Nat) (hx : x < 256 ^ n) :
    readBytes (writeBytes m addr n x) addr n = x := by
  rw [readBytes_writeBytes m addr n x n (le_refl n), Nat.mod_eq_of_lt hx]

theorem readBytes_writeBytes_disjoint (m : Nat → Nat) (a b n x : Nat)
    (h : b + n ≤ a ∨ a + n ≤ b) :
    readBytes (writeBytes m a n x) b n = readBytes m b n := by
  apply readBytes_congr
  intro j hj
  unfold writeBytes
  rw [if_neg (by omega)]

theorem view_pointer (sz : Nat) (c : MCData_Base) (o l : Int) (off : Nat) (ho : o = off)
    (hwf : c.pointer = NULL → c.head = NULL) (hlt : c.pointer + off * sz < 2 ^ 64) :
    (make3 c.head (elemAddr sz c.pointer o) l).pointer = c.pointer + off * sz := by
  subst ho
  rw [elemAddr_nat sz c.pointer off hlt]
  unfold make3
  split
  · next h0 =>
    have hp : c.pointer = NULL := by unfold NULL at h0 ⊢; omega
    show c.head = c.pointer + off * sz
    rw [hwf hp, h0]
  · rfl

/-- C10: let `c` be a scalar chunk whose fields come from a constructor (a null `pointer`
only with a null `head`) and whose `size` elements lie in the address space, and let `v`
be the view built by `MCData_Base(c.head, c.pointer + o, l)` with `0 <= o` and
`o + l <= c.size`. For `0 <= i < l` and a value `x` of the element type: after
`v.set(i, x)`, `c[o + i]` is `x`; after `c.set(o + i, x)`, `v[i]` is `x`; and either
store leaves `c[j]` as it was for every other index `0 <= j < c.size`. -/
theorem view_aliases_source (sz : Nat) (c : MCData_Base) (o l i : Int) (x : Nat)
    (rt : Runtime) (hwf : c.pointer = NULL → c.head = NULL)
    (hfit : (c.pointer : Int) + c.size * sz ≤ 2 ^ 64)
    (ho : 0 ≤ o) (hol : o + l ≤ c.size) (hi0 : 0 ≤ i) (hil : i < l)
    (hx : x < 256 ^ sz) :
    MCData_Impl.get sz c (o + i)
        (MCData_Impl.set sz (make3 c.head (elemAddr sz c.pointer o) l) i x rt) = x ∧
    MCData_Impl.get sz (make3 c.head (elemAddr sz c.pointer o) l) i
        (MCData_Impl.set sz c (o + i) x rt) = x ∧
    (∀ j : Int, 0 ≤ j → j < c.size → j ≠ o + i →
      MCData_Impl.get sz c j
          (MCData_Impl.set sz (make3 c.head (elemAddr sz c.pointer o) l) i x rt)
        = MCData_Impl.get sz c j rt) ∧
    (∀ j : Int, 0 ≤ j → j < c.size → j ≠ o + i →
      MCData_Impl.get sz c j (MCData_Impl.set sz c (o + i) x rt)
        = MCData_Impl.get sz c j rt) := by
  rcases Nat.eq_zero_or_pos sz with hz | hsz
  · subst hz
    have hx0 : x = 0 := by simpa using hx
    subst hx0
    exact ⟨rfl, rfl, fun _ _ _ _ => rfl, fun _ _ _ _ => rfl⟩
  obtain ⟨off, rfl⟩ := Int.eq_ofNat_of_zero_le ho
  obtain ⟨k, rfl⟩ := Int.eq_ofNat_of_zero_le hi0
  obtain ⟨m, hm⟩ := Int.eq_ofNat_of_zero_le (by omega : 0 ≤ c.size)
  rw [hm] at hfit hol
  have hfit' : c.pointer + m * sz ≤ 2 ^ 64 := by exact_mod_cast hfit
  have hokm : off + k + 1 ≤ m := by omega
  have hmul := Nat.mul_le_mul_right sz hokm
  have hexp : (off + k + 1) * sz = off * sz + k * sz + sz := by ring
  rw [hexp] at hmul
  have hvp := view_pointer sz c (off : Int) l off rfl hwf (by omega)
  have hva : elemAddr sz (make3 c.head (elemAddr sz c.pointer (off : Int)) l).pointer (k : Int)
      = c.pointer + off * sz + k * sz := by
    rw [hvp]
    exact elemAddr_nat sz _ k (by omega)
  have hca : elemAddr sz c.pointer ((off : Int) + (k : Int)) = c.pointer + off * sz + k * sz := by
    have e : ((off : Int) + (k : Int)) = ((off + k : Nat) : Int) := by push_cast; rfl
    rw [e, elemAddr_nat sz c.pointer (off + k) (by rw [Nat.add_mul]; omega), Nat.add_mul]
    omega
  have hother : ∀ j : Int, 0 ≤ j → j < c.size → j ≠ (off : Int) + (k : Int) →
      readBytes (writeBytes rt.mem (c.pointer + off * sz + k * sz) sz x)
        (elemAddr sz c.pointer j) sz = readBytes rt.mem (elemAddr sz c.pointer j) sz := by
    intro j hj0 hjm hne
    obtain ⟨jn, rfl⟩ := Int.eq_ofNat_of_zero_le hj0
    have hjm' : jn + 1 ≤ m := by omega
    have hmulj := Nat.mul_le_mul_right sz hjm'
    rw [Nat.add_mul, Nat.one_mul] at hmulj
    rw [elemAddr_nat sz c.pointer jn (by omega)]
    apply readBytes_writeBytes_disjoint
    rcases Nat.lt_or_ge jn (off + k) with hlt | hge
    · left
      have h1 := Nat.mul_le_mul_right sz (by omega : jn + 1 ≤ off + k)
      rw [Nat.add_mul, Nat.one_mul, Nat.add_mul] at h1
      omega
    · right
      have hgt : off + k + 1 ≤ jn := by omega
      have h1 := Nat.mul_le_mul_right sz hgt
      rw [hexp] at h1
      omega
  refine ⟨?_, ?_, ?_, ?_⟩
  · show readBytes (writeBytes rt.mem _ sz x) (elemAddr sz c.pointer _) sz = x
    rw [hva, hca]
    exact readBytes_writeBytes_same _ _ _ _ hx
  · show readBytes (writeBytes rt.mem _ sz x) (elemAddr sz _ _) sz = x
    rw [hva, hca]
    exact readBytes_writeBytes_same _ _ _ _ hx
  · intro j hj0 hjm hne
    show readBytes (writeBytes rt.mem _ sz x) (elemAddr sz c.pointer j) sz = _
    rw [hva]
    exact hother j hj0 hjm hne
  · intro j hj0 hjm hne
    show readBytes (writeBytes rt.mem _ sz x) (elemAddr sz c.pointer j) sz = _
    rw [hca]
    exact hother j hj0 hjm hne

theorem view_aliases_source_witness :
    ((4096 : Nat) = NULL → (4096 : Nat) = NULL) ∧
    ((4096 : Nat) : Int) + (8 : Int) * (4 : Nat) ≤ 2 ^ 64 ∧
    (0 : Int) ≤ 2 ∧ (2 : Int) + 3 ≤ 8 ∧ (0 : Int) ≤ 1 ∧ (1 : Int) < 3 ∧ 7 < 256 ^ 4 ∧
    (MCData_Impl.get 4 ⟨4096, 4096, 8⟩ (2 + 1)
        (MCData_Impl.set 4 (make3 4096 (elemAddr 4 4096 2) 3) 1 7 Runtime.init) = 7 ∧
    MCData_Impl.get 4 (make3 4096 (elemAddr 4 4096 2) 3) 1
        (MCData_Impl.set 4 ⟨4096, 4096, 8⟩ (2 + 1) 7 Runtime.init) = 7 ∧
    (∀ j : Int, 0 ≤ j → j < 8 → j ≠ 2 + 1 →
      MCData_Impl.get 4 ⟨4096, 4096, 8⟩ j
          (MCData_Impl.set 4 (make3 4096 (elemAddr 4 4096 2) 3) 1 7 Runtime.init)
        = MCData_Impl.get 4 ⟨4096, 4096, 8⟩ j Runtime.init) ∧
    (∀ j : Int, 0 ≤ j → j < 8 → j ≠ 2 + 1 →
      MCData_Impl.get 4 ⟨4096, 4096, 8⟩ j
          (MCData_Impl.set 4 ⟨4096, 4096, 8⟩ (2 + 1) 7 Runtime.init)
        = MCData_Impl.get 4 ⟨4096, 4096, 8⟩ j Runtime.init)) :=
  ⟨by decide, by decide, by decide, by decide, by decide, by decide, by decide,
    view_aliases_source 4 ⟨4096, 4096, 8⟩ 2 3 1 7 Runtime.init (by decide) (by decide)
      (by decide) (by decide) (by decide) (by decide) (by decide)⟩


theorem readBytes_lt (m : Nat → Nat) (addr : Nat) (hm : ∀ a, m a < 256) :
    ∀ n, readBytes m addr n < 256 ^ n := by
  intro n
  induction n with
  | zero => simp [readBytes]
  | succ n ih =>
    simp only [readBytes]
    have h1 := hm (addr + n)
    have h2 : m (addr + n) * 256 ^ n ≤ 255 * 256 ^ n := Nat.mul_le_mul_right _ (by omega)
    rw [pow_succ]
    omega

theorem pow_256_eq (n : Nat) : (256 : Nat) ^ n = 2 ^ (8 * n) := by
  rw [pow_mul]
  norm_num

theorem elem_write_other (sz : Nat) (c : MCData_Base) (i j : Int) (x : Nat)
    (mem : Nat → Nat) (hfit : (c.pointer : Int) + c.size * sz ≤ 2 ^ 64)
    (hi0 : 0 ≤ i) (hi : i < c.size) (hj0 : 0 ≤ j) (hj : j < c.size) (hne : j ≠ i) :
    readBytes (writeBytes mem (elemAddr sz c.pointer i) sz x) (elemAddr sz c.pointer j) sz
      = readBytes mem (elemAddr sz c.pointer j) sz := by
  rcases Nat.eq_zero_or_pos sz with hz | hsz
  · subst hz; rfl
  obtain ⟨k, rfl⟩ := Int.eq_ofNat_of_zero_le hi0
  obtain ⟨l, rfl⟩ := Int.eq_ofNat_of_zero_le hj0
  obtain ⟨m, hm⟩ := Int.eq_ofNat_of_zero_le (by omega : 0 ≤ c.size)
  rw [hm] at hfit hi hj
  have hfit' : c.pointer + m * sz ≤ 2 ^ 64 := by exact_mod_cast hfit
  have hk := Nat.mul_le_mul_right sz (by omega : k + 1 ≤ m)
  have hl := Nat.mul_le_mul_right sz (by omega : l + 1 ≤ m)
  rw [Nat.add_mul, Nat.one_mul] at hk hl
  rw [elemAddr_nat sz c.pointer k (by omega), elemAddr_nat sz c.pointer l (by omega)]
  apply readBytes_writeBytes_disjoint
  rcases Nat.lt_or_ge l k with hlt | hge
  · left
    have h1 := Nat.mul_le_mul_right sz (by omega : l + 1 ≤ k)
    rw [Nat.add_mul, Nat.one_mul] at h1
    omega
  · right
    have h1 := Nat.mul_le_mul_right sz (by omega : k + 1 ≤ l)
    rw [Nat.add_mul, Nat.one_mul] at h1
    omega

/-- C11: for a scalar chunk whose elements lie in the address space, an index
`0 <= i < size`, and values `expected`, `newValue` of the element type,
`atomicCAS(i, expected, newValue)` returns `true` exactly when element `i` equalled
`expected` before the call; when it returns `true` element `i` is `newValue` afterwards,
when it returns `false` element `i` is unchanged, and in both cases every element at
another index is unchanged. -/
theorem atomicCAS_spec (sz : Nat) (c : MCData_Base) (i : Int) (expected newValue : Nat)
    (rt : Runtime) (hfit : (c.pointer : Int) + c.size * sz ≤ 2 ^ 64)
    (hi0 : 0 ≤ i) (hi : i < c.size) (hnew : newValue < 256 ^ sz) :
    ((MCData_Impl.atomicCAS sz c i expected newValue rt).1 = true ↔
      MCData_Impl.get sz c i rt = expected) ∧
    ((MCData_Impl.atomicCAS sz c i expected newValue rt).1 = true →
      MCData_Impl.get sz c i (MCData_Impl.atomicCAS sz c i expected newValue rt).2
        = newValue) ∧
    ((MCData_Impl.atomicCAS sz c i expected newValue rt).1 = false →
      MCData_Impl.get sz c i (MCData_Impl.atomicCAS sz c i expected newValue rt).2
        = MCData_Impl.get sz c i rt) ∧
    (∀ j : Int, 0 ≤ j → j < c.size → j ≠ i →
      MCData_Impl.get sz c j (MCData_Impl.atomicCAS sz c i expected newValue rt).2
        = MCData_Impl.get sz c j rt) := by
  unfold MCData_Impl.atomicCAS __sync_bool_compare_and_swap MCData_Impl.get
  by_cases h : readBytes rt.mem (elemAddr sz c.pointer i) sz = expected
  · rw [if_pos h]
    refine ⟨⟨fun _ => h, fun _ => rfl⟩, fun _ => ?_, fun hf => (Bool.noConfusion hf), ?_⟩
    · exact readBytes_writeBytes_same _ _ _ _ hnew
    · intro j hj0 hj hne
      exact elem_write_other sz c i j newValue rt.mem hfit hi0 hi hj0 hj hne
  · rw [if_neg h]
    exact ⟨⟨fun hf => (Bool.noConfusion hf), fun he => absurd he h⟩,
      fun hf => (Bool.noConfusion hf), fun _ => rfl, fun _ _ _ _ => rfl⟩

theorem atomicCAS_spec_witness :
    ((4096 : Nat) : Int) + (8 : Int) * (4 : Nat) ≤ 2 ^ 64 ∧ (0 : Int) ≤ 3 ∧ (3 : Int) < 8 ∧
    20 < 256 ^ 4 ∧
    (((MCData_Impl.atomicCAS 4 ⟨4096, 4096, 8⟩ 3 10 20
          (MCData_Impl.set 4 ⟨4096, 4096, 8⟩ 3 10 Runtime.init)).1 = true ↔
      MCData_Impl.get 4 ⟨4096, 4096, 8⟩ 3
        (MCData_Impl.set 4 ⟨4096, 4096, 8⟩ 3 10 Runtime.init) = 10) ∧
    ((MCData_Impl.atomicCAS 4 ⟨4096, 4096, 8⟩ 3 10 20
          (MCData_Impl.set 4 ⟨4096, 4096, 8⟩ 3 10 Runtime.init)).1 = true →
      MCData_Impl.get 4 ⟨4096, 4096, 8⟩ 3
        (MCData_Impl.atomicCAS 4 ⟨4096, 4096, 8⟩ 3 10 20
          (MCData_Impl.set 4 ⟨4096, 4096, 8⟩ 3 10 Runtime.init)).2 = 20) ∧
    ((MCData_Impl.atomicCAS 4 ⟨4096, 4096, 8⟩ 3 10 20
          (MCData_Impl.set 4 ⟨4096, 4096, 8⟩ 3 10 Runtime.init)).1 = false →
      MCData_Impl.get 4 ⟨4096, 4096, 8⟩ 3
        (MCData_Impl.atomicCAS 4 ⟨4096, 4096, 8⟩ 3 10 20
          (MCData_Impl.set 4 ⟨4096, 4096, 8⟩ 3 10 Runtime.init)).2
        = MCData_Impl.get 4 ⟨4096, 4096, 8⟩ 3
          (MCData_Impl.set 4 ⟨4096, 4096, 8⟩ 3 10 Runtime.init)) ∧
    (∀ j : Int, 0 ≤ j → j < 8 → j ≠ 3 →
      MCData_Impl.get 4 ⟨4096, 4096, 8⟩ j
        (MCData_Impl.atomicCAS 4 ⟨4096, 4096, 8⟩ 3 10 20
          (MCData_Impl.set 4 ⟨4096, 4096, 8⟩ 3 10 Runtime.init)).2
        = MCData_Impl.get 4 ⟨4096, 4096, 8⟩ j
          (MCData_Impl.set 4 ⟨4096, 4096, 8⟩ 3 10 Runtime.init))) :=
  ⟨by decide, by decide, by decide, by decide,
    atomicCAS_spec 4 ⟨4096, 4096, 8⟩ 3 10 20
      (MCData_Impl.set 4 ⟨4096, 4096, 8⟩ 3 10 Runtime.init)
      (by decide) (by decide) (by decide) (by decide)⟩

theorem fetch_op_spec (sz : Nat) (c : MCData_Base) (i : Int) (r : Nat) (rt : Runtime)
    (hfit : (c.pointer : Int) + c.size * sz ≤ 2 ^ 64) (hi0 : 0 ≤ i) (hi : i < c.size) :
    readBytes (writeBytes rt.mem (elemAddr sz c.pointer i) sz r) (elemAddr sz c.pointer i) sz
        = r % 2 ^ (8 * sz) ∧
    ∀ j : Int, 0 ≤ j → j < c.size → j ≠ i →
      readBytes (writeBytes rt.mem (elemAddr sz c.pointer i) sz r)
          (elemAddr sz c.pointer j) sz
        = readBytes rt.mem (elemAddr sz c.pointer j) sz := by
  constructor
  · rw [readBytes_writeBytes _ _ _ _ sz (le_refl sz), pow_256_eq]
  · intro j hj0 hj hne
    exact elem_write_other sz c i j r rt.mem hfit hi0 hi hj0 hj hne

/-- C12: for a scalar chunk whose elements lie in a byte memory inside the address space,
an index `0 <= i < size` and a value `v` of the element type (`8 * sizeof(T)` bits wide),
each of `atomicAdd`, `atomicOr`, `atomicAnd`, `atomicXor` returns the value `p` that
element `i` held before the call and leaves element `i` equal to `p + v` modulo
`2^width`, `p | v`, `p & v` and `p ^ v` respectively; every element at another index is
unchanged. -/
theorem atomic_fetch_ops_spec (sz : Nat) (c : MCData_Base) (i : Int) (v : Nat)
    (rt : Runtime) (hmem : ∀ a, rt.mem a < 256)
    (hfit : (c.pointer : Int) + c.size * sz ≤ 2 ^ 64)
    (hi0 : 0 ≤ i) (hi : i < c.size) (hv : v < 2 ^ (8 * sz)) :
    ((MCData_Impl.atomicAdd sz c i v rt).1 = MCData_Impl.get sz c i rt ∧
      MCData_Impl.get sz c i (MCData_Impl.atomicAdd sz c i v rt).2
        = (MCData_Impl.get sz c i rt + v) % 2 ^ (8 * sz) ∧
      ∀ j : Int, 0 ≤ j → j < c.size → j ≠ i →
        MCData_Impl.get sz c j (MCData_Impl.atomicAdd sz c i v rt).2
          = MCData_Impl.get sz c j rt) ∧
    ((MCData_Impl.atomicOr sz c i v rt).1 = MCData_Impl.get sz c i rt ∧
      MCData_Impl.get sz c i (MCData_Impl.atomicOr sz c i v rt).2
        = MCData_Impl.get sz c i rt ||| v ∧
      ∀ j : Int, 0 ≤ j → j < c.size → j ≠ i →
        MCData_Impl.get sz c j (MCData_Impl.atomicOr sz c i v rt).2
          = MCData_Impl.get sz c j rt) ∧
    ((MCData_Impl.atomicAnd sz c i v rt).1 = MCData_Impl.get sz c i rt ∧
      MCData_Impl.get sz c i (MCData_Impl.atomicAnd sz c i v rt).2
        = MCData_Impl.get sz c i rt &&& v ∧
      ∀ j : Int, 0 ≤ j → j < c.size → j ≠ i →
        MCData_Impl.get sz c j (MCData_Impl.atomicAnd sz c i v rt).2
          = MCData_Impl.get sz c j rt) ∧
    ((MCData_Impl.atomicXor sz c i v rt).1 = MCData_Impl.get sz c i rt ∧
      MCData_Impl.get sz c i (MCData_Impl.atomicXor sz c i v rt).2
        = MCData_Impl.get sz c i rt ^^^ v ∧
      ∀ j : Int, 0 ≤ j → j < c.size → j ≠ i →
        MCData_Impl.get sz c j (MCData_Impl.atomicXor sz c i v rt).2
          = MCData_Impl.get sz c j rt) := by
  have hp : readBytes rt.mem (elemAddr sz c.pointer i) sz < 2 ^ (8 * sz) := by
    rw [← pow_256_eq]
    exact readBytes_lt rt.mem _ hmem sz
  refine ⟨⟨rfl, ?_, ?_⟩, ⟨rfl, ?_, ?_⟩, ⟨rfl, ?_, ?_⟩, ⟨rfl, ?_, ?_⟩⟩
  · exact (fetch_op_spec sz c i _ rt hfit hi0 hi).1
  · exact (fetch_op_spec sz c i _ rt hfit hi0 hi).2
  · have h := (fetch_op_spec sz c i
      (readBytes rt.mem (elemAddr sz c.pointer i) sz ||| v) rt hfit hi0 hi).1
    rw [Nat.mod_eq_of_lt (Nat.or_lt_two_pow hp hv)] at h
    exact h
  · exact (fetch_op_spec sz c i _ rt hfit hi0 hi).2
  · have h := (fetch_op_spec sz c i
      (readBytes rt.mem (elemAddr sz c.pointer i) sz &&& v) rt hfit hi0 hi).1
    rw [Nat.mod_eq_of_lt (Nat.and_lt_two_pow _ hv)] at h
    exact h
  · exact (fetch_op_spec sz c i _ rt hfit hi0 hi).2
  · have h := (fetch_op_spec sz c i
      (readBytes rt.mem (elemAddr sz c.pointer i) sz ^^^ v) rt hfit hi0 hi).1
    rw [Nat.mod_eq_of_lt (Nat.xor_lt_two_pow hp hv)] at h
    exact h
  · exact (fetch_op_spec sz c i _ rt hfit hi0 hi).2

theorem atomic_fetch_ops_spec_witness :
    (∀ a, Runtime.init.mem a < 256) ∧
    ((4096 : Nat) : Int) + (8 : Int) * (4 : Nat) ≤ 2 ^ 64 ∧ (0 : Int) ≤ 3 ∧ (3 : Int) < 8 ∧
    5 < 2 ^ (8 * 4) ∧
    (((MCData_Impl.atomicAdd 4 ⟨4096, 4096, 8⟩ 3 5 Runtime.init).1
        = MCData_Impl.get 4 ⟨4096, 4096, 8⟩ 3 Runtime.init ∧
      MCData_Impl.get 4 ⟨4096, 4096, 8⟩ 3
          (MCData_Impl.atomicAdd 4 ⟨4096, 4096, 8⟩ 3 5 Runtime.init).2
        = (MCData_Impl.get 4 ⟨4096, 4096, 8⟩ 3 Runtime.init + 5) % 2 ^ (8 * 4) ∧
      ∀ j : Int, 0 ≤ j → j < 8 → j ≠ 3 →
        MCData_Impl.get 4 ⟨4096, 4096, 8⟩ j
            (MCData_Impl.atomicAdd 4 ⟨4096, 4096, 8⟩ 3 5 Runtime.init).2
          = MCData_Impl.get 4 ⟨4096, 4096, 8⟩ j Runtime.init) ∧
    ((MCData_Impl.atomicOr 4 ⟨4096, 4096, 8⟩ 3 5 Runtime.init).1
        = MCData_Impl.get 4 ⟨4096, 4096, 8⟩ 3 Runtime.init ∧
      MCData_Impl.get 4 ⟨4096, 4096, 8⟩ 3
          (MCData_Impl.atomicOr 4 ⟨4096, 4096, 8⟩ 3 5 Runtime.init).2
        = MCData_Impl.get 4 ⟨4096, 4096, 8⟩ 3 Runtime.init ||| 5 ∧
      ∀ j : Int, 0 ≤ j → j < 8 → j ≠ 3 →
        MCData_Impl.get 4 ⟨4096, 4096, 8⟩ j
            (MCData_Impl.atomicOr 4 ⟨4096, 4096, 8⟩ 3 5 Runtime.init).2
          = MCData_Impl.get 4 ⟨4096, 4096, 8⟩ j Runtime.init) ∧
    ((MCData_Impl.atomicAnd 4 ⟨4096, 4096, 8⟩ 3 5 Runtime.init).1
        = MCData_Impl.get 4 ⟨4096, 4096, 8⟩ 3 Runtime.init ∧
      MCData_Impl.get 4 ⟨4096, 4096, 8⟩ 3
          (MCData_Impl.atomicAnd 4 ⟨4096, 4096, 8⟩ 3 5 Runtime.init).2
        = MCData_Impl.get 4 ⟨4096, 4096, 8⟩ 3 Runtime.init &&& 5 ∧
      ∀ j : Int, 0 ≤ j → j < 8 → j ≠ 3 →
        MCData_Impl.get 4 ⟨4096, 4096, 8⟩ j
            (MCData_Impl.atomicAnd 4 ⟨4096, 4096, 8⟩ 3 5 Runtime.init).2
          = MCData_Impl.get 4 ⟨4096, 4096, 8⟩ j Runtime.init) ∧
    ((MCData_Impl.atomicXor 4 ⟨4096, 4096, 8⟩ 3 5 Runtime.init).1
        = MCData_Impl.get 4 ⟨4096, 4096, 8⟩ 3 Runtime.init ∧
      MCData_Impl.get 4 ⟨4096, 4096, 8⟩ 3
          (MCData_Impl.atomicXor 4 ⟨4096, 4096, 8⟩ 3 5 Runtime.init).2
        = MCData_Impl.get 4 ⟨4096, 4096, 8⟩ 3 Runtime.init ^^^ 5 ∧
      ∀ j : Int, 0 ≤ j → j < 8 → j ≠ 3 →
        MCData_Impl.get 4 ⟨4096, 4096, 8⟩ j
            (MCData_Impl.atomicXor 4 ⟨4096, 4096, 8⟩ 3 5 Runtime.init).2
          = MCData_Impl.get 4 ⟨4096, 4096, 8⟩ j Runtime.init)) :=
  ⟨fun _ => show (0 : Nat) < 256 by decide, by decide, by decide, by decide, by decide,
    atomic_fetch_ops_spec 4 ⟨4096, 4096, 8⟩ 3 5 Runtime.init
      (fun _ => show (0 : Nat) < 256 by decide) (by decide) (by decide) (by decide) (by decide)⟩

theorem atomicAdd_example :
    (MCData_Impl.atomicAdd 4 ⟨4096, 4096, 8⟩ 3 5
      (MCData_Impl.set 4 ⟨4096, 4096, 8⟩ 3 10 Runtime.init)).1 = 10 ∧
    MCData_Impl.get 4 ⟨4096, 4096, 8⟩ 3 (MCData_Impl.atomicAdd 4 ⟨4096, 4096, 8⟩ 3 5
      (MCData_Impl.set 4 ⟨4096, 4096, 8⟩ 3 10 Runtime.init)).2 = 15 :=
  ⟨rfl, rfl⟩

/-- C13 (counterexample): on a chunk of class-typed elements `atomicAdd`, `atomicOr`,
`atomicAnd`, `atomicXor` and `atomicCAS` return normally, with the results `NULL` and
`false`; none of them reports a failure. -/
theorem object_atomics_return_normally :
    MCData_Impl_Obj.atomicAdd ⟨4096, 4096, 4⟩ 0 8192 Runtime.init
      = .ok (NULL, Runtime.init) ∧
    MCData_Impl_Obj.atomicOr ⟨4096, 4096, 4⟩ 0 8192 Runtime.init
      = .ok (NULL, Runtime.init) ∧
    MCData_Impl_Obj.atomicAnd ⟨4096, 4096, 4⟩ 0 8192 Runtime.init
      = .ok (NULL, Runtime.init) ∧
    MCData_Impl_Obj.atomicXor ⟨4096, 4096, 4⟩ 0 8192 Runtime.init
      = .ok (NULL, Runtime.init) ∧
    MCData_Impl_Obj.atomicCAS ⟨4096, 4096, 4⟩ 0 8192 8200 Runtime.init
      = .ok (false, Runtime.init) ∧
    (∀ e, MCData_Impl_Obj.atomicAdd ⟨4096, 4096, 4⟩ 0 8192 Runtime.init ≠ .error e) :=
  ⟨rfl, rfl, rfl, rfl, rfl, fun _ h => Except.noConfusion h⟩

/-- C13 (as amended): on every chunk of class-typed elements, for every index and every
argument, `atomicAdd`, `atomicOr`, `atomicAnd` and `atomicXor` return `NULL` and
`atomicCAS` returns `false`, as normal results; no failure is raised and the runtime,
hence every element, is left as it was. -/
theorem object_atomics_are_stubs (c : MCData_Base) (index : Int) (expect value : Nat)
    (rt : Runtime) :
    MCData_Impl_Obj.atomicAdd c index value rt = .ok (NULL, rt) ∧
    MCData_Impl_Obj.atomicOr c index value rt = .ok (NULL, rt) ∧
    MCData_Impl_Obj.atomicAnd c index value rt = .ok (NULL, rt) ∧
    MCData_Impl_Obj.atomicXor c index value rt = .ok (NULL, rt) ∧
    MCData_Impl_Obj.atomicCAS c index expect value rt = .ok (false, rt) :=
  ⟨rfl, rfl, rfl, rfl, rfl⟩

theorem readBytes_ext (m1 m2 : Nat → Nat) (a1 a2 : Nat) :
    ∀ n, (∀ j, j < n → m1 (a1 + j) = m2 (a2 + j)) →
      readBytes m1 a1 n = readBytes m2 a2 n := by
  intro n
  induction n with
  | zero => intro _; rfl
  | succ n ih =>
    intro h
    simp only [readBytes]
    rw [ih (fun j hj => h j (by omega)), h n (by omega)]

theorem elemAddr_add (sz : Nat) (c : MCData_Base) (idx i : Int)
    (hfit : (c.pointer : Int) + c.size * sz ≤ 2 ^ 64) (hsz : 0 < sz)
    (h0 : 0 ≤ idx) (hi0 : 0 ≤ i) (h : idx + i < c.size) :
    elemAddr sz c.pointer (idx + i) = c.pointer + idx.toNat * sz + i.toNat * sz ∧
    c.pointer + idx.toNat * sz + i.toNat * sz + sz ≤ c.pointer + c.size.toNat * sz ∧
    c.pointer + c.size.toNat * sz ≤ 2 ^ 64 := by
  obtain ⟨k, rfl⟩ := Int.eq_ofNat_of_zero_le h0
  obtain ⟨l, rfl⟩ := Int.eq_ofNat_of_zero_le hi0
  obtain ⟨m, hm⟩ := Int.eq_ofNat_of_zero_le (by omega : 0 ≤ c.size)
  rw [hm] at hfit h ⊢
  have hfit' : c.pointer + m * sz ≤ 2 ^ 64 := by exact_mod_cast hfit
  have hk := Nat.mul_le_mul_right sz (by omega : k + l + 1 ≤ m)
  have hexp : (k + l + 1) * sz = k * sz + l * sz + sz := by ring
  rw [hexp] at hk
  have e : ((k : Int) + (l : Int)) = ((k + l : Nat) : Int) := by push_cast; rfl
  simp only [Int.toNat_ofNat]
  refine ⟨?_, by omega, hfit'⟩
  rw [e, elemAddr_nat sz c.pointer (k + l) (by rw [Nat.add_mul]; omega), Nat.add_mul]
  omega

/-- C14: for scalar chunks `src` and `dst` whose elements lie in the address space
(whether or not they share storage, and whichever way their ranges overlap),
`srcIndex`, `dstIndex`, `count` within bounds and `count * sizeof(T)` below `2^64`: after
`copy(src, srcIndex, dst, dstIndex, count)` the element `dst[dstIndex + i]` is the value
`src[srcIndex + i]` had before the call, for every `0 <= i < count`; every byte outside
the destination range, and so every element of `dst` at an index outside
`[dstIndex, dstIndex + count)`, is unchanged. -/
theorem copy_is_overlap_safe (sz : Nat) (src dst : MCData_Base)
    (srcIndex dstIndex count : Int) (rt : Runtime)
    (hsrc : (src.pointer : Int) + src.size * sz ≤ 2 ^ 64)
    (hdst : (dst.pointer : Int) + dst.size * sz ≤ 2 ^ 64)
    (hlen : count * sz < 2 ^ 64)
    (hs0 : 0 ≤ srcIndex) (hd0 : 0 ≤ dstIndex) (hc0 : 0 ≤ count)
    (hs : srcIndex + count ≤ src.size) (hd : dstIndex + count ≤ dst.size) :
    (∀ i : Int, 0 ≤ i → i < count →
      MCData_Impl.get sz dst (dstIndex + i)
          (MCData_Impl.copy sz src srcIndex dst dstIndex count rt)
        = MCData_Impl.get sz src (srcIndex + i) rt) ∧
    (∀ q : Nat, ¬ (elemAddr sz dst.pointer dstIndex ≤ q ∧
        q < elemAddr sz dst.pointer dstIndex + count.toNat * sz) →
      (MCData_Impl.copy sz src srcIndex dst dstIndex count rt).mem q = rt.mem q) ∧
    (∀ j : Int, 0 ≤ j → j < dst.size → (j < dstIndex ∨ dstIndex + count ≤ j) →
      MCData_Impl.get sz dst j (MCData_Impl.copy sz src srcIndex dst dstIndex count rt)
        = MCData_Impl.get sz dst j rt) := by
  obtain ⟨n, rfl⟩ := Int.eq_ofNat_of_zero_le hc0
  have hlen' : n * sz < 2 ^ 64 := by exact_mod_cast hlen
  have hbits : toBits 64 ((n : Int) * (sz : Int)) = n * sz :=
    toBits_of_range 64 _ _ (by push_cast; ring) hlen'
  have hmem : ∀ q, (MCData_Impl.copy sz src srcIndex dst dstIndex (n : Int) rt).mem q =
      if elemAddr sz dst.pointer dstIndex ≤ q ∧ q < elemAddr sz dst.pointer dstIndex + n * sz
      then rt.mem (elemAddr sz src.pointer srcIndex + (q - elemAddr sz dst.pointer dstIndex))
      else rt.mem q := by
    intro q
    unfold MCData_Impl.copy memmove
    rw [hbits]
  rcases Nat.eq_zero_or_pos sz with hz | hsz
  · subst hz
    refine ⟨fun _ _ _ => rfl, ?_, fun _ _ _ _ => rfl⟩
    intro q hq
    rw [hmem, if_neg (by simp)]
  refine ⟨?_, ?_, ?_⟩
  · intro i hi0 hi
    obtain ⟨hda, hdb, hdc⟩ := elemAddr_add sz dst dstIndex i hdst hsz hd0 hi0 (by omega)
    obtain ⟨hsa, hsb, hsc⟩ := elemAddr_add sz src srcIndex i hsrc hsz hs0 hi0 (by omega)
    obtain ⟨hda0, _, _⟩ := elemAddr_add sz dst dstIndex 0 hdst hsz hd0 (le_refl 0) (by omega)
    obtain ⟨hsa0, _, _⟩ := elemAddr_add sz src srcIndex 0 hsrc hsz hs0 (le_refl 0) (by omega)
    simp only [add_zero, Int.toNat_zero, Nat.zero_mul] at hda0 hsa0
    obtain ⟨k, rfl⟩ := Int.eq_ofNat_of_zero_le hi0
    simp only [Int.toNat_ofNat] at hda hsa hdb hsb
    have hk := Nat.mul_le_mul_right sz (by omega : k + 1 ≤ n)
    rw [Nat.add_mul, Nat.one_mul] at hk
    unfold MCData_Impl.get
    rw [hda, hsa]
    apply readBytes_ext
    intro b hb
    rw [hmem, hda0, hsa0, if_pos (by omega)]
    congr 1
    omega
  · intro q hq
    rw [hmem, if_neg (by simpa using hq)]
  · intro j hj0 hj hout
    unfold MCData_Impl.get
    apply readBytes_congr
    intro b hb
    rw [hmem]
    rcases Nat.eq_zero_or_pos n with hn0 | hnpos
    · subst hn0
      rw [if_neg (by omega)]
    obtain ⟨hja, hjb, hjc⟩ := elemAddr_add sz dst j 0 hdst hsz hj0 (le_refl 0) (by omega)
    obtain ⟨hda0, hdb0, _⟩ := elemAddr_add sz dst dstIndex 0 hdst hsz hd0 (le_refl 0)
      (by omega)
    simp only [add_zero, Int.toNat_zero, Nat.zero_mul] at hja hda0 hjb hdb0
    rw [hja, hda0]
    obtain ⟨jj, rfl⟩ := Int.eq_ofNat_of_zero_le hj0
    obtain ⟨dd, rfl⟩ := Int.eq_ofNat_of_zero_le hd0
    simp only [Int.toNat_ofNat] at *
    rw [if_neg]
    rcases hout with h1 | h1
    · have h2 := Nat.mul_le_mul_right sz (by omega : jj + 1 ≤ dd)
      rw [Nat.add_mul, Nat.one_mul] at h2
      omega
    · have h2 := Nat.mul_le_mul_right sz (by omega : dd + n ≤ jj)
      rw [Nat.add_mul] at h2
      omega

/-- C18: `equals(a, b)` and `_struct_equals(a, b)` are true exactly when
`a.pointer == b.pointer` and `a.size == b.size`, whatever the `head` fields are (and the
runtime, which neither reads); chunks that are `equals` have the same `hashCode`, which
is the pointer address truncated to a signed 32-bit value. -/
theorem equals_iff_pointer_and_size (a b : MCData_Base) :
    (equals a b = true ↔ a.pointer = b.pointer ∧ a.size = b.size) ∧
    (_struct_equals a b = true ↔ a.pointer = b.pointer ∧ a.size = b.size) ∧
    (∀ h1 h2 : Nat, equals ⟨h1, a.pointer, a.size⟩ ⟨h2, b.pointer, b.size⟩ = equals a b) ∧
    (equals a b = true → hashCode a = hashCode b) ∧
    hashCode a = toSigned 32 (a.pointer % 2 ^ 32) ∧
    -2 ^ 31 ≤ hashCode a ∧ hashCode a < 2 ^ 31 ∧
    toBits 32 (hashCode a) = a.pointer % 2 ^ 32 := by
  have hiff : equals a b = true ↔ a.pointer = b.pointer ∧ a.size = b.size := by
    unfold equals
    simp
  refine ⟨hiff, ?_, fun _ _ => rfl, ?_, rfl, ?_, ?_, ?_⟩
  · unfold _struct_equals
    simp
  · intro h
    unfold hashCode
    rw [(hiff.mp h).1]
  all_goals
    simp only [hashCode, toSigned, toBits]
    have hlt : a.pointer % 2 ^ 32 < 2 ^ 32 := Nat.mod_lt _ (by norm_num)
    have e31 : ((2 : Int) ^ 31) = 2147483648 := by norm_num
    have e32 : ((2 : Int) ^ 32) = 4294967296 := by norm_num
    have n31 : ((2 : Nat) ^ (32 - 1)) = 2147483648 := by norm_num
    have n32 : ((2 : Nat) ^ 32) = 4294967296 := by norm_num
    rw [n32] at hlt ⊢
    rw [n31, e32]
    try rw [e31]
    split <;> omega

theorem copy_is_overlap_safe_witness :
    ((4096 : Nat) : Int) + (8 : Int) * (4 : Nat) ≤ 2 ^ 64 ∧
    ((4096 : Nat) : Int) + (8 : Int) * (4 : Nat) ≤ 2 ^ 64 ∧
    (3 : Int) * (4 : Nat) < 2 ^ 64 ∧
    (0 : Int) ≤ 0 ∧ (0 : Int) ≤ 1 ∧ (0 : Int) ≤ 3 ∧ (0 : Int) + 3 ≤ 8 ∧ (1 : Int) + 3 ≤ 8 ∧
    ((∀ i : Int, 0 ≤ i → i < 3 →
      MCData_Impl.get 4 ⟨4096, 4096, 8⟩ (1 + i)
          (MCData_Impl.copy 4 ⟨4096, 4096, 8⟩ 0 ⟨4096, 4096, 8⟩ 1 3 Runtime.init)
        = MCData_Impl.get 4 ⟨4096, 4096, 8⟩ (0 + i) Runtime.init) ∧
    (∀ q : Nat, ¬ (elemAddr 4 4096 1 ≤ q ∧ q < elemAddr 4 4096 1 + (3 : Int).toNat * 4) →
      (MCData_Impl.copy 4 ⟨4096, 4096, 8⟩ 0 ⟨4096, 4096, 8⟩ 1 3 Runtime.init).mem q
        = Runtime.init.mem q) ∧
    (∀ j : Int, 0 ≤ j → j < 8 → (j < 1 ∨ 1 + 3 ≤ j) →
      MCData_Impl.get 4 ⟨4096, 4096, 8⟩ j
          (MCData_Impl.copy 4 ⟨4096, 4096, 8⟩ 0 ⟨4096, 4096, 8⟩ 1 3 Runtime.init)
        = MCData_Impl.get 4 ⟨4096, 4096, 8⟩ j Runtime.init)) :=
  ⟨by decide, by decide, by decide, by decide, by decide, by decide, by decide, by decide,
    copy_is_overlap_safe 4 ⟨4096, 4096, 8⟩ ⟨4096, 4096, 8⟩ 0 1 3 Runtime.init
      (by decide) (by decide) (by decide) (by decide) (by decide) (by decide) (by decide)
      (by decide)⟩

theorem copy_overlap_example :
    MCData_Impl.get 1 ⟨4096, 4096, 4⟩ 1
      (MCData_Impl.copy 1 ⟨4096, 4096, 4⟩ 0 ⟨4096, 4096, 4⟩ 1 2
        (MCData_Impl.set 1 ⟨4096, 4096, 4⟩ 2 3 (MCData_Impl.set 1 ⟨4096, 4096, 4⟩ 1 2
          (MCData_Impl.set 1 ⟨4096, 4096, 4⟩ 0 1 Runtime.init)))) = 1 ∧
    MCData_Impl.get 1 ⟨4096, 4096, 4⟩ 2
      (MCData_Impl.copy 1 ⟨4096, 4096, 4⟩ 0 ⟨4096, 4096, 4⟩ 1 2
        (MCData_Impl.set 1 ⟨4096, 4096, 4⟩ 2 3 (MCData_Impl.set 1 ⟨4096, 4096, 4⟩ 1 2
          (MCData_Impl.set 1 ⟨4096, 4096, 4⟩ 0 1 Runtime.init)))) = 2 :=
  ⟨rfl, rfl⟩

theorem length_bytesOf : ∀ n x, (bytesOf n x).length = n := by
  intro n
  induction n with
  | zero => intro x; rfl
  | succ n ih => intro x; simp [bytesOf, ih]

theorem valueOf_bytesOf : ∀ n x, valueOf (bytesOf n x) = x % 256 ^ n := by
  intro n
  induction n with
  | zero => intro x; simp [bytesOf, valueOf, Nat.mod_one]
  | succ n ih =>
    intro x
    simp only [bytesOf, valueOf, ih]
    rw [pow_succ, Nat.mul_comm (256 ^ n) 256, Nat.mod_mul]

theorem read_long_write_long (v : Int) (rest : List Nat) (h0 : 0 ≤ v) (h : v < 2 ^ 63) :
    read_long (write_long [] v ++ rest) = (v, rest) := by
  obtain ⟨n, rfl⟩ := Int.eq_ofNat_of_zero_le h0
  have e63 : ((2 : Int) ^ 63) = 9223372036854775808 := by norm_num
  rw [e63] at h
  have hb : toBits 64 (n : Int) = n :=
    toBits_of_range 64 _ n rfl (by
      have : ((2 : Nat) ^ 64) = 18446744073709551616 := by norm_num
      omega)
  unfold read_long write_long
  rw [List.nil_append, hb, List.take_left' (length_bytesOf 8 n),
    List.drop_left' (length_bytesOf 8 n), valueOf_bytesOf]
  have hmod : n % 256 ^ 8 = n := Nat.mod_eq_of_lt (by
    have : ((256 : Nat) ^ 8) = 18446744073709551616 := by norm_num
    omega)
  rw [hmod]
  unfold toSigned
  have n63 : ((2 : Nat) ^ (64 - 1)) = 9223372036854775808 := by norm_num
  rw [n63, if_pos (by omega)]

theorem payload_by_elements (sz p : Nat) (mem : Nat → Nat) (n : Nat) (hsz : 0 < sz)
    (hfit : p + n * sz ≤ 2 ^ 64) :
    ∀ k, k ≤ n →
      (List.range (k * sz)).map (fun j => mem (p + j))
        = (List.range k).flatMap
            (fun i => (List.range sz).map (fun b => mem (elemAddr sz p (i : Int) + b))) := by
  intro k
  induction k with
  | zero => intro _; simp
  | succ k ih =>
    intro hk
    have hmul := Nat.mul_le_mul_right sz hk
    rw [Nat.add_mul, Nat.one_mul] at hmul
    rw [Nat.add_mul, Nat.one_mul, List.range_add, List.map_append, ih (by omega),
      List.range_succ, List.flatMap_append]
    congr 1
    simp only [List.flatMap_cons, List.flatMap_nil, List.append_nil, List.map_map]
    rw [elemAddr_nat sz p k (by omega)]
    apply List.map_congr_left
    intro b _
    simp only [Function.comp, Nat.add_assoc]

/-- C16: for a scalar chunk with `size >= 0` whose elements lie in the address space and
an element type without internal references (`containsPtrs` false), `_serialize` appends
to the buffer the eight bytes of `size` followed by the `sizeof(T)` bytes of
`pointer[0]`, `pointer[1]`, ..., `pointer[size - 1]` in this order, `8 + size * sizeof(T)`
bytes in all, and nothing else; the bytes are taken from `pointer`, and `head` plays no
part. -/
theorem serialize_scalar_layout (sz : Nat) (writeT : Nat → List Nat) (c : MCData_Base)
    (rt : Runtime) (buf : List Nat) (hsz : 0 < sz) (hsize : 0 ≤ c.size)
    (hfit : (c.pointer : Int) + c.size * sz ≤ 2 ^ 64) :
    MCData_Impl._serialize sz false writeT c rt buf
      = buf ++ bytesOf 8 (toBits 64 c.size) ++
          (List.range c.size.toNat).flatMap
            (fun i => (List.range sz).map
              (fun b => rt.mem (elemAddr sz c.pointer (i : Int) + b))) ∧
    (MCData_Impl._serialize sz false writeT c rt buf).length
      = buf.length + 8 + c.size.toNat * sz ∧
    (∀ h : Nat, MCData_Impl._serialize sz false writeT ⟨h, c.pointer, c.size⟩ rt buf
      = MCData_Impl._serialize sz false writeT c rt buf) := by
  obtain ⟨n, hn⟩ := Int.eq_ofNat_of_zero_le hsize
  rw [hn] at hfit
  have hfit' : c.pointer + n * sz ≤ 2 ^ 64 := by exact_mod_cast hfit
  have hraw : MCData_Impl._serialize sz false writeT c rt buf
      = buf ++ bytesOf 8 (toBits 64 c.size) ++
          (List.range (c.size.toNat * sz)).map (fun j => rt.mem (c.pointer + j)) := by
    simp [MCData_Impl._serialize, write_long, copyIn]
  refine ⟨?_, ?_, fun _ => rfl⟩
  · rw [hraw, hn, Int.toNat_ofNat,
      payload_by_elements sz c.pointer rt.mem n hsz hfit' n (le_refl n)]
  · rw [hraw]
    simp only [List.length_append, List.length_map, List.length_range, length_bytesOf]

theorem serialize_scalar_layout_witness :
    0 < 4 ∧ (0 : Int) ≤ 3 ∧ ((4104 : Nat) : Int) + (3 : Int) * (4 : Nat) ≤ 2 ^ 64 ∧
    (MCData_Impl._serialize 4 false (fun _ => []) ⟨4096, 4104, 3⟩ Runtime.init [7]
      = [7] ++ bytesOf 8 (toBits 64 3) ++
          (List.range (3 : Int).toNat).flatMap
            (fun i => (List.range 4).map
              (fun b => Runtime.init.mem (elemAddr 4 4104 (i : Int) + b))) ∧
    (MCData_Impl._serialize 4 false (fun _ => []) ⟨4096, 4104, 3⟩ Runtime.init [7]).length
      = [7].length + 8 + (3 : Int).toNat * 4 ∧
    (∀ h : Nat,
      MCData_Impl._serialize 4 false (fun _ => []) ⟨h, 4104, 3⟩ Runtime.init [7]
        = MCData_Impl._serialize 4 false (fun _ => []) ⟨4096, 4104, 3⟩ Runtime.init [7])) :=
  ⟨by decide, by decide, by decide,
    serialize_scalar_layout 4 (fun _ => []) ⟨4096, 4104, 3⟩ Runtime.init [7] (by decide)
      (by decide) (by decide)⟩

theorem make_for_deserialize (sz a : Nat) (n : Nat) (rt0 : Runtime) :
    ∃ d rt1, MCData_Impl._make sz a (n : Int) 0 false rt0 = .ok (d, rt1) ∧
      d.size = (n : Int) ∧ (0 < n → d.pointer = a) := by
  rcases Nat.eq_zero_or_pos n with h0 | hpos
  · subst h0
    refine ⟨MCData_Base.empty, rt0, ?_, rfl, fun h => absurd h (by decide)⟩
    simp [MCData_Impl._make, MCData_Base._make, make3, MCData_Base.empty]
  · have hc : (n : Int) ≠ 0 := by omega
    have h := make_zero_eq sz a (n : Int) false rt0 hc
    exact ⟨_, _, h, rfl, fun _ => rfl⟩

/-- C15: let `c` be a scalar chunk (owning or view) of an element type without internal
references, with `0 <= size < 2^63` and its elements inside the address space. Reading,
in any runtime, a buffer that holds what `_serialize(c)` wrote followed by further bytes,
`_deserialize` returns a chunk `d` with `d.size == c.size` whose element `i` equals the
element `i` that `c` had when it was serialized, for every `0 <= i < size`, and leaves
in the buffer exactly the bytes that followed (the allocator returning a block that lies
in the address space). -/
theorem deserialize_serialize_roundtrip (sz : Nat) (writeT : Nat → List Nat)
    (readT : List Nat → Nat × List Nat) (c : MCData_Base) (rt : Runtime)
    (allocAddr : Nat) (rt0 : Runtime) (rest : List Nat)
    (hsz : 0 < sz) (hsize0 : 0 ≤ c.size) (hsize : c.size < 2 ^ 63)
    (hfit : (c.pointer : Int) + c.size * sz ≤ 2 ^ 64)
    (hdfit : (allocAddr : Int) + c.size * sz ≤ 2 ^ 64) :
    ∃ d rt', MCData_Impl._deserialize sz false readT allocAddr
        (MCData_Impl._serialize sz false writeT c rt [] ++ rest) rt0 = .ok (d, rt', rest) ∧
      d.size = c.size ∧
      ∀ i : Int, 0 ≤ i → i < c.size →
        MCData_Impl.get sz d i rt' = MCData_Impl.get sz c i rt := by
  obtain ⟨n, hn⟩ := Int.eq_ofNat_of_zero_le hsize0
  have hfit' : c.pointer + n * sz ≤ 2 ^ 64 := by rw [hn] at hfit; exact_mod_cast hfit
  have hdfit' : allocAddr + n * sz ≤ 2 ^ 64 := by rw [hn] at hdfit; exact_mod_cast hdfit
  have hser : MCData_Impl._serialize sz false writeT c rt [] ++ rest
      = write_long [] c.size ++
          ((List.range (n * sz)).map (fun j => rt.mem (c.pointer + j)) ++ rest) := by
    simp [MCData_Impl._serialize, copyIn, hn]
  have hread := read_long_write_long c.size
    ((List.range (n * sz)).map (fun j => rt.mem (c.pointer + j)) ++ rest) hsize0 hsize
  obtain ⟨d, rt1, hmk, hdsize, hdptr⟩ := make_for_deserialize sz allocAddr n rt0
  refine ⟨d, (copyOut ((List.range (n * sz)).map (fun j => rt.mem (c.pointer + j)) ++ rest)
    d.pointer c.size sz rt1).1, ?_, by rw [hdsize, hn], ?_⟩
  · unfold MCData_Impl._deserialize
    rw [hser, hread]
    simp only [hn, hmk, Bool.false_eq_true, if_false]
    simp [copyOut]
  · intro i hi0 hi
    obtain ⟨k, rfl⟩ := Int.eq_ofNat_of_zero_le hi0
    have hkn : k + 1 ≤ n := by omega
    have hmul := Nat.mul_le_mul_right sz hkn
    rw [Nat.add_mul, Nat.one_mul] at hmul
    have hp : d.pointer = allocAddr := hdptr (by omega)
    unfold MCData_Impl.get
    rw [hp, elemAddr_nat sz allocAddr k (by omega), elemAddr_nat sz c.pointer k (by omega)]
    apply readBytes_ext
    intro b hb
    simp only [copyOut, hn, Int.toNat_ofNat, hp]
    rw [if_pos (by omega)]
    have hidx : allocAddr + k * sz + b - allocAddr = k * sz + b := by omega
    rw [hidx, List.getD_append _ _ _ _ (by simp; omega),
      List.getD_eq_getElem _ _ (by simp; omega)]
    simp [Nat.add_assoc]

theorem deserialize_serialize_roundtrip_witness :
    0 < 4 ∧ (0 : Int) ≤ 3 ∧ (3 : Int) < 2 ^ 63 ∧
    ((4104 : Nat) : Int) + (3 : Int) * (4 : Nat) ≤ 2 ^ 64 ∧
    ((8192 : Nat) : Int) + (3 : Int) * (4 : Nat) ≤ 2 ^ 64 ∧
    ∃ d rt', MCData_Impl._deserialize 4 false (fun b => (0, b)) 8192
        (MCData_Impl._serialize 4 false (fun _ => []) ⟨4096, 4104, 3⟩ Runtime.init [] ++ [9])
        Runtime.init = .ok (d, rt', [9]) ∧
      d.size = 3 ∧
      ∀ i : Int, 0 ≤ i → i < 3 →
        MCData_Impl.get 4 d i rt' = MCData_Impl.get 4 ⟨4096, 4104, 3⟩ i Runtime.init :=
  ⟨by decide, by decide, by decide, by decide, by decide,
    deserialize_serialize_roundtrip 4 (fun _ => []) (fun b => (0, b)) ⟨4096, 4104, 3⟩
      Runtime.init 8192 Runtime.init [9] (by decide) (by decide) (by decide) (by decide)
      (by decide)⟩

theorem roundtrip_example :
    ∃ d rt', MCData_Impl._deserialize 4 false (fun b => (0, b)) 8192
        (MCData_Impl._serialize 4 false (fun _ => []) ⟨4096, 4096, 3⟩
          (MCData_Impl.set 4 ⟨4096, 4096, 3⟩ 2 3 (MCData_Impl.set 4 ⟨4096, 4096, 3⟩ 1 2
            (MCData_Impl.set 4 ⟨4096, 4096, 3⟩ 0 1 Runtime.init))) [])
        Runtime.init = .ok (d, rt', []) ∧
      d.size = 3 ∧ MCData_Impl.get 4 d 0 rt' = 1 ∧ MCData_Impl.get 4 d 1 rt' = 2 ∧
      MCData_Impl.get 4 d 2 rt' = 3 :=
  ⟨_, _, rfl, rfl, rfl, rfl, rfl⟩

theorem asc_copy_succ (sz D S : Nat) (rt : Runtime) (k : Nat) :
    (List.range (k + 1)).foldl
        (fun r (i : Nat) => MCData_Impl_Obj.assign sz (D + i * sz) (S + i * sz) r) rt
      = MCData_Impl_Obj.assign sz (D + k * sz) (S + k * sz)
          ((List.range k).foldl
            (fun r (i : Nat) => MCData_Impl_Obj.assign sz (D + i * sz) (S + i * sz) r) rt) := by
  rw [List.range_succ, List.foldl_append]
  rfl

theorem assign_mem (sz dst src : Nat) (rt : Runtime) (q : Nat) :
    (MCData_Impl_Obj.assign sz dst src rt).mem q
      = if dst ≤ q ∧ q < dst + sz then rt.mem (src + (q - dst)) else rt.mem q := rfl

theorem asc_copy_safe (sz D S n : Nat) (rt : Runtime) (h : D ≤ S ∨ S + n * sz ≤ D) :
    ∀ k, k ≤ n → ∀ q,
      ((List.range k).foldl
          (fun r (i : Nat) => MCData_Impl_Obj.assign sz (D + i * sz) (S + i * sz) r) rt).mem q
        = if D ≤ q ∧ q < D + k * sz then rt.mem (S + (q - D)) else rt.mem q := by
  intro k
  induction k with
  | zero =>
    intro _ q
    simp only [List.range_zero, List.foldl_nil, Nat.zero_mul, Nat.add_zero]
    rw [if_neg (by omega)]
  | succ k ih =>
    intro hk q
    have hmul := Nat.mul_le_mul_right sz hk
    rw [Nat.add_mul, Nat.one_mul] at hmul
    rw [asc_copy_succ, assign_mem, Nat.add_mul, Nat.one_mul]
    by_cases hq : D + k * sz ≤ q ∧ q < D + k * sz + sz
    · have hR : D ≤ q ∧ q < D + (k * sz + sz) := by omega
      have hL : ¬ (D ≤ S + k * sz + (q - (D + k * sz)) ∧
          S + k * sz + (q - (D + k * sz)) < D + k * sz) := by omega
      rw [if_pos hq, if_pos hR, ih (by omega), if_neg hL]
      congr 1
      omega
    · rw [if_neg hq, ih (by omega)]
      by_cases hq2 : D ≤ q ∧ q < D + k * sz
      · have hR : D ≤ q ∧ q < D + (k * sz + sz) := by omega
        rw [if_pos hq2, if_pos hR]
      · have hR : ¬ (D ≤ q ∧ q < D + (k * sz + sz)) := by omega
        rw [if_neg hq2, if_neg hR]

theorem asc_copy_forward (sz D S delta : Nat) (rt : Runtime) (hD : D = S + delta)
    (hdelta : sz ≤ delta) (hsz : 0 < sz) :
    ∀ k q,
      ((List.range k).foldl
          (fun r (i : Nat) => MCData_Impl_Obj.assign sz (D + i * sz) (S + i * sz) r) rt).mem q
        = if D ≤ q ∧ q < D + k * sz then rt.mem (S + (q - S) % delta) else rt.mem q := by
  intro k
  induction k with
  | zero =>
    intro q
    simp only [List.range_zero, List.foldl_nil, Nat.zero_mul, Nat.add_zero]
    rw [if_neg (by omega)]
  | succ k ih =>
    intro q
    rw [asc_copy_succ, assign_mem, Nat.add_mul, Nat.one_mul]
    by_cases hq : D + k * sz ≤ q ∧ q < D + k * sz + sz
    · have hR : D ≤ q ∧ q < D + (k * sz + sz) := by omega
      rw [if_pos hq, if_pos hR, ih]
      have hqS : q - S = delta + (S + k * sz + (q - (D + k * sz)) - S) := by omega
      by_cases hs : D ≤ S + k * sz + (q - (D + k * sz))
      · have hL : D ≤ S + k * sz + (q - (D + k * sz)) ∧
            S + k * sz + (q - (D + k * sz)) < D + k * sz := by omega
        rw [if_pos hL, hqS, Nat.add_mod_left]
      · have hL : ¬ (D ≤ S + k * sz + (q - (D + k * sz)) ∧
            S + k * sz + (q - (D + k * sz)) < D + k * sz) := by omega
        rw [if_neg hL, hqS, Nat.add_mod_left, Nat.mod_eq_of_lt (by omega)]
        congr 1
        omega
    · rw [if_neg hq, ih]
      by_cases hq2 : D ≤ q ∧ q < D + k * sz
      · have hR : D ≤ q ∧ q < D + (k * sz + sz) := by omega
        rw [if_pos hq2, if_pos hR]
      · have hR : ¬ (D ≤ q ∧ q < D + (k * sz + sz)) := by omega
        rw [if_neg hq2, if_neg hR]

theorem mod_elem (i d sz b : Nat) (hd : 0 < d) (hb : b < sz) :
    (i * sz + b) % (d * sz) = i % d * sz + b := by
  have h1 : i * sz + b = d * sz * (i / d) + (i % d * sz + b) := by
    have := Nat.div_add_mod i d
    calc i * sz + b = (d * (i / d) + i % d) * sz + b := by rw [this]
      _ = d * sz * (i / d) + (i % d * sz + b) := by ring
  have h2 : i % d * sz + b < d * sz := by
    have h3 : i % d + 1 ≤ d := Nat.mod_lt i hd
    have h4 := Nat.mul_le_mul_right sz h3
    rw [Nat.add_mul, Nat.one_mul] at h4
    omega
  rw [h1, Nat.mul_add_mod, Nat.mod_eq_of_lt h2]

theorem elemAddr_at (sz : Nat) (c : MCData_Base) (idx : Int) (i : Nat)
    (hfit : (c.pointer : Int) + c.size * sz ≤ 2 ^ 64) (hsz : 0 < sz)
    (h0 : 0 ≤ idx) (h : idx + i < c.size) :
    elemAddr sz c.pointer (idx + (i : Int)) = elemAddr sz c.pointer idx + i * sz ∧
    elemAddr sz c.pointer ((i : Int) + idx) = elemAddr sz c.pointer idx + i * sz ∧
    elemAddr sz c.pointer idx + i * sz + sz ≤ 2 ^ 64 := by
  obtain ⟨h1, h2, h3⟩ := elemAddr_add sz c idx (i : Int) hfit hsz h0 (by omega) h
  obtain ⟨h4, _, _⟩ := elemAddr_add sz c idx 0 hfit hsz h0 (le_refl 0) (by omega)
  simp only [add_zero, Int.toNat_zero, Nat.zero_mul, Int.toNat_ofNat] at h1 h2 h4
  rw [Int.add_comm (i : Int) idx, h1, h4]
  exact ⟨rfl, rfl, by omega⟩

theorem obj_copy_eq_loop (sz : Nat) (src dst : MCData_Base) (srcIndex dstIndex : Int)
    (n : Nat) (rt : Runtime) (hsz : 0 < sz)
    (hsrc : (src.pointer : Int) + src.size * sz ≤ 2 ^ 64)
    (hdst : (dst.pointer : Int) + dst.size * sz ≤ 2 ^ 64)
    (hs0 : 0 ≤ srcIndex) (hd0 : 0 ≤ dstIndex)
    (hs : srcIndex + n ≤ src.size) (hd : dstIndex + n ≤ dst.size) :
    MCData_Impl_Obj.copy sz src srcIndex dst dstIndex (n : Int) rt
      = (List.range n).foldl
          (fun r (i : Nat) => MCData_Impl_Obj.assign sz
            (elemAddr sz dst.pointer dstIndex + i * sz)
            (elemAddr sz src.pointer srcIndex + i * sz) r) rt := by
  unfold MCData_Impl_Obj.copy
  rw [Int.toNat_ofNat]
  apply List.foldl_ext
  intro r i hi
  have hi' : i < n := List.mem_range.mp hi
  rw [(elemAddr_at sz dst dstIndex i hdst hsz hd0 (by omega)).2.1,
    (elemAddr_at sz src srcIndex i hsrc hsz hs0 (by omega)).2.1]

/-- C20: for chunks of class-typed elements inside the address space and `srcIndex`,
`dstIndex`, `count` within bounds, `copy` assigns the elements in ascending order. If the
two ranges are disjoint, or the destination range starts at or before the source range,
`dst[dstIndex + i]` ends with the value `src[srcIndex + i]` had before the call, for every
`0 <= i < count`. If the destination range starts `d > 0` elements after the source
range, `dst[dstIndex + i]` ends with the value `src[srcIndex + (i mod d)]` had before the
call (for `d < count` the ranges overlap and the first `d` source elements are
replicated). For some contents this is not what the overlap-safe `memmove` of the scalar
`copy` produces. -/
theorem object_copy_ascending (sz : Nat) (src dst : MCData_Base)
    (srcIndex dstIndex count : Int) (rt : Runtime) (hsz : 0 < sz)
    (hsrc : (src.pointer : Int) + src.size * sz ≤ 2 ^ 64)
    (hdst : (dst.pointer : Int) + dst.size * sz ≤ 2 ^ 64)
    (hs0 : 0 ≤ srcIndex) (hd0 : 0 ≤ dstIndex) (hc0 : 0 ≤ count)
    (hs : srcIndex + count ≤ src.size) (hd : dstIndex + count ≤ dst.size) :
    ((elemAddr sz src.pointer srcIndex + count.toNat * sz ≤ elemAddr sz dst.pointer dstIndex ∨
        elemAddr sz dst.pointer dstIndex + count.toNat * sz
          ≤ elemAddr sz src.pointer srcIndex ∨
        elemAddr sz dst.pointer dstIndex ≤ elemAddr sz src.pointer srcIndex) →
      ∀ i : Int, 0 ≤ i → i < count →
        MCData_Impl_Obj.value sz (MCData_Impl_Obj.get sz dst (dstIndex + i))
            (MCData_Impl_Obj.copy sz src srcIndex dst dstIndex count rt)
          = MCData_Impl_Obj.value sz (MCData_Impl_Obj.get sz src (srcIndex + i)) rt) ∧
    (∀ d : Nat, 0 < d →
      elemAddr sz dst.pointer dstIndex = elemAddr sz src.pointer srcIndex + d * sz →
      ∀ i : Int, 0 ≤ i → i < count →
        MCData_Impl_Obj.value sz (MCData_Impl_Obj.get sz dst (dstIndex + i))
            (MCData_Impl_Obj.copy sz src srcIndex dst dstIndex count rt)
          = MCData_Impl_Obj.value sz
              (MCData_Impl_Obj.get sz src (srcIndex + i % (d : Int))) rt) ∧
    (∃ rt1 : Runtime,
      MCData_Impl_Obj.value 1 (MCData_Impl_Obj.get 1 ⟨4096, 4096, 4⟩ 2)
          (MCData_Impl_Obj.copy 1 ⟨4096, 4096, 4⟩ 0 ⟨4096, 4096, 4⟩ 1 2 rt1)
        ≠ MCData_Impl_Obj.value 1 (MCData_Impl_Obj.get 1 ⟨4096, 4096, 4⟩ 2)
          (MCData_Impl.copy 1 ⟨4096, 4096, 4⟩ 0 ⟨4096, 4096, 4⟩ 1 2 rt1)) := by
  obtain ⟨n, rfl⟩ := Int.eq_ofNat_of_zero_le hc0
  have hloop := obj_copy_eq_loop sz src dst srcIndex dstIndex n rt hsz hsrc hdst hs0 hd0 hs hd
  simp only [Int.toNat_ofNat]
  refine ⟨?_, ?_, ?_⟩
  · intro hcase i hi0 hi
    obtain ⟨k, rfl⟩ := Int.eq_ofNat_of_zero_le hi0
    have hk : k < n := by omega
    have hkm := Nat.mul_le_mul_right sz (by omega : k + 1 ≤ n)
    rw [Nat.add_mul, Nat.one_mul] at hkm
    unfold MCData_Impl_Obj.value MCData_Impl_Obj.get
    rw [(elemAddr_at sz dst dstIndex k hdst hsz hd0 (by omega)).1,
      (elemAddr_at sz src srcIndex k hsrc hsz hs0 (by omega)).1, hloop]
    apply readBytes_ext
    intro b hb
    rw [asc_copy_safe sz _ _ n rt (by omega) n (le_refl n), if_pos (by omega)]
    congr 1
    omega
  · intro d hd0' hD i hi0 hi
    obtain ⟨k, rfl⟩ := Int.eq_ofNat_of_zero_le hi0
    have hk : k < n := by omega
    have hkm := Nat.mul_le_mul_right sz (by omega : k + 1 ≤ n)
    rw [Nat.add_mul, Nat.one_mul] at hkm
    have hmod : ((k : Int) % (d : Int)) = ((k % d : Nat) : Int) := by norm_cast
    have hkd : k % d ≤ k := Nat.mod_le k d
    have hdsz : sz ≤ d * sz := Nat.le_mul_of_pos_left sz hd0'
    unfold MCData_Impl_Obj.value MCData_Impl_Obj.get
    rw [hmod, (elemAddr_at sz dst dstIndex k hdst hsz hd0 (by omega)).1,
      (elemAddr_at sz src srcIndex (k % d) hsrc hsz hs0 (by omega)).1, hloop]
    apply readBytes_ext
    intro b hb
    rw [asc_copy_forward sz _ _ (d * sz) rt hD hdsz hsz n, if_pos (by omega)]
    have hq : elemAddr sz dst.pointer dstIndex + k * sz + b - elemAddr sz src.pointer srcIndex
        = d * sz + (k * sz + b) := by omega
    rw [hq, Nat.add_mod_left, mod_elem k d sz b hd0' hb, Nat.add_assoc]
  · refine ⟨MCData_Impl.set 1 ⟨4096, 4096, 4⟩ 2 3 (MCData_Impl.set 1 ⟨4096, 4096, 4⟩ 1 2
      (MCData_Impl.set 1 ⟨4096, 4096, 4⟩ 0 1 Runtime.init)), ?_⟩
    have h1 : MCData_Impl_Obj.value 1 (MCData_Impl_Obj.get 1 ⟨4096, 4096, 4⟩ 2)
        (MCData_Impl_Obj.copy 1 ⟨4096, 4096, 4⟩ 0 ⟨4096, 4096, 4⟩ 1 2
          (MCData_Impl.set 1 ⟨4096, 4096, 4⟩ 2 3 (MCData_Impl.set 1 ⟨4096, 4096, 4⟩ 1 2
            (MCData_Impl.set 1 ⟨4096, 4096, 4⟩ 0 1 Runtime.init)))) = 1 := rfl
    have h2 : MCData_Impl_Obj.value 1 (MCData_Impl_Obj.get 1 ⟨4096, 4096, 4⟩ 2)
        (MCData_Impl.copy 1 ⟨4096, 4096, 4⟩ 0 ⟨4096, 4096, 4⟩ 1 2
          (MCData_Impl.set 1 ⟨4096, 4096, 4⟩ 2 3 (MCData_Impl.set 1 ⟨4096, 4096, 4⟩ 1 2
            (MCData_Impl.set 1 ⟨4096, 4096, 4⟩ 0 1 Runtime.init)))) = 2 := rfl
    rw [h1, h2]
    decide

theorem object_copy_ascending_witness :
    0 < 16 ∧ ((4096 : Nat) : Int) + (8 : Int) * (16 : Nat) ≤ 2 ^ 64 ∧
    ((4096 : Nat) : Int) + (8 : Int) * (16 : Nat) ≤ 2 ^ 64 ∧
    (0 : Int) ≤ 0 ∧ (0 : Int) ≤ 2 ∧ (0 : Int) ≤ 4 ∧ (0 : Int) + 4 ≤ 8 ∧ (2 : Int) + 4 ≤ 8 ∧
    (((elemAddr 16 4096 0 + (4 : Int).toNat * 16 ≤ elemAddr 16 4096 2 ∨
        elemAddr 16 4096 2 + (4 : Int).toNat * 16 ≤ elemAddr 16 4096 0 ∨
        elemAddr 16 4096 2 ≤ elemAddr 16 4096 0) →
      ∀ i : Int, 0 ≤ i → i < 4 →
        MCData_Impl_Obj.value 16 (MCData_Impl_Obj.get 16 ⟨4096, 4096, 8⟩ (2 + i))
            (MCData_Impl_Obj.copy 16 ⟨4096, 4096, 8⟩ 0 ⟨4096, 4096, 8⟩ 2 4 Runtime.init)
          = MCData_Impl_Obj.value 16 (MCData_Impl_Obj.get 16 ⟨4096, 4096, 8⟩ (0 + i))
              Runtime.init) ∧
    (∀ d : Nat, 0 < d → elemAddr 16 4096 2 = elemAddr 16 4096 0 + d * 16 →
      ∀ i : Int, 0 ≤ i → i < 4 →
        MCData_Impl_Obj.value 16 (MCData_Impl_Obj.get 16 ⟨4096, 4096, 8⟩ (2 + i))
            (MCData_Impl_Obj.copy 16 ⟨4096, 4096, 8⟩ 0 ⟨4096, 4096, 8⟩ 2 4 Runtime.init)
          = MCData_Impl_Obj.value 16
              (MCData_Impl_Obj.get 16 ⟨4096, 4096, 8⟩ (0 + i % (d : Int))) Runtime.init) ∧
    (∃ rt1 : Runtime,
      MCData_Impl_Obj.value 1 (MCData_Impl_Obj.get 1 ⟨4096, 4096, 4⟩ 2)
          (MCData_Impl_Obj.copy 1 ⟨4096, 4096, 4⟩ 0 ⟨4096, 4096, 4⟩ 1 2 rt1)
        ≠ MCData_Impl_Obj.value 1 (MCData_Impl_Obj.get 1 ⟨4096, 4096, 4⟩ 2)
          (MCData_Impl.copy 1 ⟨4096, 4096, 4⟩ 0 ⟨4096, 4096, 4⟩ 1 2 rt1))) :=
  ⟨by decide, by decide, by decide, by decide, by decide, by decide, by decide, by decide,
    object_copy_ascending 16 ⟨4096, 4096, 8⟩ ⟨4096, 4096, 8⟩ 0 2 4 Runtime.init
      (by decide) (by decide) (by decide) (by decide) (by decide) (by decide) (by decide)
      (by decide)⟩

theorem object_copy_example :
    elemAddr 1 4096 1 = elemAddr 1 4096 0 + 1 * 1 ∧
    MCData_Impl_Obj.value 1 (MCData_Impl_Obj.get 1 ⟨4096, 4096, 4⟩ 1)
        (MCData_Impl_Obj.copy 1 ⟨4096, 4096, 4⟩ 0 ⟨4096, 4096, 4⟩ 1 3
          (MCData_Impl.set 1 ⟨4096, 4096, 4⟩ 2 3 (MCData_Impl.set 1 ⟨4096, 4096, 4⟩ 1 2
            (MCData_Impl.set 1 ⟨4096, 4096, 4⟩ 0 1 Runtime.init)))) = 1 ∧
    MCData_Impl_Obj.value 1 (MCData_Impl_Obj.get 1 ⟨4096, 4096, 4⟩ 2)
        (MCData_Impl_Obj.copy 1 ⟨4096, 4096, 4⟩ 0 ⟨4096, 4096, 4⟩ 1 3
          (MCData_Impl.set 1 ⟨4096, 4096, 4⟩ 2 3 (MCData_Impl.set 1 ⟨4096, 4096, 4⟩ 1 2
            (MCData_Impl.set 1 ⟨4096, 4096, 4⟩ 0 1 Runtime.init)))) = 1 ∧
    MCData_Impl_Obj.value 1 (MCData_Impl_Obj.get 1 ⟨4096, 4096, 4⟩ 3)
        (MCData_Impl_Obj.copy 1 ⟨4096, 4096, 4⟩ 0 ⟨4096, 4096, 4⟩ 1 3
          (MCData_Impl.set 1 ⟨4096, 4096, 4⟩ 2 3 (MCData_Impl.set 1 ⟨4096, 4096, 4⟩ 1 2
            (MCData_Impl.set 1 ⟨4096, 4096, 4⟩ 0 1 Runtime.init)))) = 1 :=
  ⟨rfl, rfl, rfl, rfl⟩

theorem object_roundtrip_example :
    (MCData_Impl_Obj._serialize 16 2 ⟨4096, 4096, 2⟩
        (storeRefs 4112 [70000, 4096] (storeRefs 4096 [70000, 70016] Runtime.init))
        ⟨[], []⟩).tokens
      = [Token.size 2, Token.identity, Token.fresh, Token.fresh,
          Token.identity, Token.backref 1, Token.backref 0] ∧
    (MCData_Impl_Obj._serialize 16 2 ⟨4096, 4096, 2⟩
        (storeRefs 4112 [70000, 4096] (storeRefs 4096 [70000, 70016] Runtime.init))
        ⟨[], []⟩).table = [4096, 70000, 70016, 4112] ∧
    ∃ rt' rbuf,
      MCData_Impl_Obj._deserialize 16 2 (fun _ s => s) (fun _ s => s)
          (fun k => 65536 + 16 * k) 8192 Runtime.init
          ⟨[Token.size 2, Token.identity, Token.fresh, Token.fresh,
            Token.identity, Token.backref 1, Token.backref 0], []⟩
        = .ok (⟨8192, 8192, 2⟩, rt', rbuf) ∧
      rbuf.tokens = [] ∧ rbuf.table = [8192, 65552, 65568, 8208] ∧
      refField rt'.mem 8192 0 = 65552 ∧ refField rt'.mem 8192 1 = 65568 ∧
      refField rt'.mem 8208 0 = 65552 ∧ refField rt'.mem 8208 1 = 8192 :=
  ⟨by decide, by decide, _, _, rfl, rfl, rfl, by decide, by decide, by decide, by decide⟩

end MemoryChunkData
